import Mathlib

/-!
Verification of the CPCT+ error-recovery core and the FOLLOW-set computation
of a Yacc-compatible LR parsing toolkit.

The first part embeds the repair-search operations of `lrpar/src/lib/cpctplus.rs`:
the `PathFNode` search states, their equality, the `insert`, `delete` and `shift`
neighbour generators, the merge and success closures of `recover`, and the
materialization of repair sequences.  Cactus stacks are persistent sequences
compared structurally, so they are embedded as plain lists with the newest
element at the head; `child` is cons, `val` is head, `parent` is tail.
Machine integers (`u16` costs, `usize` indices) are embedded as `Nat`, with the
`u16` overflow check of `checked_add` made explicit.  Code paths that panic in
the source (an `unwrap` on an empty cactus, a `checked_add` overflow, the
`unreachable` arm of the merge closure) are embedded as `Option.none`.

The second part embeds `cfgrammar/src/lib/yacc/follows.rs` (`YaccFollows::new`),
with token bitsets embedded as `Finset Nat`.
-/

/-! ## Repairs and repair merges -/

/-- Search-level repair actions, from `enum Repair` in cpctplus.rs. -/
inductive Repair where
  | insertTerm (t : Nat)
  | delete
  | shift
deriving DecidableEq, Repr

/-- Entries of the repair cactus, from `enum RepairMerge` in cpctplus.rs.
The `merge` variant carries the alternate equal-cost repair tails. -/
inductive RepairMerge where
  | repair (r : Repair)
  | merge (r : Repair) (v : List (List RepairMerge))
  | terminator
deriving Repr

mutual

/-- Structural equality on `RepairMerge`, mirroring the derived `PartialEq`
of the source (cactus equality is sequence equality). -/
def rmBeq : RepairMerge → RepairMerge → Bool
  | .repair a, .repair b => a = b
  | .merge a v, .merge b w => a = b && rmBeqLL v w
  | .terminator, .terminator => true
  | _, _ => false

/-- Structural equality on repair-cactus sequences. -/
def rmBeqL : List RepairMerge → List RepairMerge → Bool
  | [], [] => true
  | x :: xs, y :: ys => rmBeq x y && rmBeqL xs ys
  | _, _ => false

/-- Structural equality on sequences of repair-cactus sequences. -/
def rmBeqLL : List (List RepairMerge) → List (List RepairMerge) → Bool
  | [], [] => true
  | x :: xs, y :: ys => rmBeqL x y && rmBeqLL xs ys
  | _, _ => false

end

mutual

def rmBeq_iff : ∀ a b, rmBeq a b = true ↔ a = b
  | .repair a, .repair b => by simp [rmBeq]
  | .merge a v, .merge b w => by simp [rmBeq, rmBeqLL_iff v w]
  | .terminator, .terminator => by simp [rmBeq]
  | .repair _, .merge _ _ => by simp [rmBeq]
  | .repair _, .terminator => by simp [rmBeq]
  | .merge _ _, .repair _ => by simp [rmBeq]
  | .merge _ _, .terminator => by simp [rmBeq]
  | .terminator, .repair _ => by simp [rmBeq]
  | .terminator, .merge _ _ => by simp [rmBeq]

def rmBeqL_iff : ∀ a b, rmBeqL a b = true ↔ a = b
  | [], [] => by simp [rmBeqL]
  | x :: xs, y :: ys => by simp [rmBeqL, rmBeq_iff x y, rmBeqL_iff xs ys]
  | [], _ :: _ => by simp [rmBeqL]
  | _ :: _, [] => by simp [rmBeqL]

def rmBeqLL_iff : ∀ a b, rmBeqLL a b = true ↔ a = b
  | [], [] => by simp [rmBeqLL]
  | x :: xs, y :: ys => by simp [rmBeqLL, rmBeqL_iff x y, rmBeqLL_iff xs ys]
  | [], _ :: _ => by simp [rmBeqLL]
  | _ :: _, [] => by simp [rmBeqLL]

end

instance : DecidableEq RepairMerge := fun a b =>
  decidable_of_iff (rmBeq a b = true) (rmBeq_iff a b)

/-! ## Parser-side inputs: lexemes, actions, state table -/

/-- A lexeme: token index, start offset, length, from `Lexeme::new`. -/
structure Lexeme where
  tok : Nat
  start : Nat
  len : Nat
deriving DecidableEq, Repr

/-- Modelled from the spec: the state-table `Action` type of the external
`lrtable` crate (its source is not part of this tree); section 3 of the spec
gives `action(state, token) : Shift(state) | Reduce(prod) | Accept | Error`. -/
inductive Action' where
  | shift (s : Nat)
  | reduce (p : Nat)
  | accept
  | error
deriving DecidableEq, Repr

/-- Modelled from the spec: the immutable state table consumed by the core
(section 3): the `action` and `goto` functions plus the per-state set of
tokens whose action is not Error (`state_actions`).  A missing goto entry is
`none` (the source would panic there). -/
structure StateTable where
  action : Nat → Nat → Action'
  stateActions : Nat → List Nat
  goto : Nat → Nat → Option Nat

/-- Modelled from the spec: the parser view consumed by the recoverer
(section 6): grammar data (EOF token index, production lengths and rules),
the state table, the pre-lexed input and the caller-supplied token cost.
`eofStart` is the offset reported for the position one past the last lexeme. -/
structure Parser where
  stable : StateTable
  lexemes : List Lexeme
  tokenCost : Nat → Nat
  eofTokenIdx : Nat
  prodLen : Nat → Nat
  prodToRule : Nat → Nat
  eofStart : Nat

/-- Modelled from the spec: `next_tidx(laidx)` returns the token index of the
lexeme at `laidx`, or EOF when `laidx` is past the end of the input. -/
def Parser.nextTidx (p : Parser) (laidx : Nat) : Nat :=
  match p.lexemes[laidx]? with
  | some l => l.tok
  | none => p.eofTokenIdx

/-- Modelled from the spec: `next_lexeme(laidx)` returns the lexeme at
`laidx`; past the end it denotes the zero-length EOF position. -/
def Parser.nextLexeme (p : Parser) (laidx : Nat) : Lexeme :=
  match p.lexemes[laidx]? with
  | some l => l
  | none => { tok := p.eofTokenIdx, start := p.eofStart, len := 0 }

/-- Modelled from the spec: the LR simulator `lr_cactus` over cactus stacks
(section 4.4), in tree-off mode.  The lookahead token comes from the
synthesized lexeme when `laidx = laidxLimit - 1` and one is supplied,
otherwise from the input.  Shift pushes and advances the lookahead by one and
stops; Reduce pops the production length, pushes the goto state and
continues; Accept and Error stop with the lookahead unchanged.  `fuel` bounds
the reduce chain; `none` is a panic (empty stack, missing goto) or fuel
exhaustion. -/
def lrCactus (p : Parser) : Nat → Option Lexeme → Nat → Nat → List Nat →
    Option (Nat × List Nat)
  | 0, _, _, _, _ => none
  | _ + 1, lexeme, laidx, laidxLimit, [] =>
    let _ := lexeme
    let _ := laidx
    let _ := laidxLimit
    none
  | fuel + 1, lexeme, laidx, laidxLimit, st :: pstack =>
    let tok :=
      match lexeme with
      | some l => if laidx = laidxLimit - 1 then l.tok else p.nextTidx laidx
      | none => p.nextTidx laidx
    match p.stable.action st tok with
    | .shift s => some (laidx + 1, s :: st :: pstack)
    | .reduce pr =>
      let popped := (st :: pstack).drop (p.prodLen pr)
      match popped with
      | [] => none
      | newTop :: rest =>
        match p.stable.goto newTop (p.prodToRule pr) with
        | none => none
        | some g => lrCactus p fuel lexeme laidx laidxLimit (g :: newTop :: rest)
    | .accept => some (laidx, st :: pstack)
    | .error => some (laidx, st :: pstack)

/-! ## Path nodes -/

/-- Constant N from Corchuelo et al., `PARSE_AT_LEAST` in cpctplus.rs. -/
def PARSE_AT_LEAST : Nat := 3

/-- A search state, from `struct PathFNode`: the cactus parse stack (top at
the head), the lookahead index, the repair cactus (newest at the head,
terminated by `terminator`) and the accumulated `u16` cost. -/
structure PathFNode where
  pstack : List Nat
  laidx : Nat
  repairs : List RepairMerge
  cf : Nat
deriving DecidableEq, Repr

/-- The head repair of a repair cactus, from `PathFNode::last_repair`; the
outer `Option` is the panic on an empty cactus, the inner one distinguishes
the terminator. -/
def lastRepairOf : List RepairMerge → Option (Option Repair)
  | [] => none
  | .repair r :: _ => some (some r)
  | .merge r _ :: _ => some (some r)
  | .terminator :: _ => some none

/-- From `PathFNode::last_repair` in cpctplus.rs. -/
def PathFNode.lastRepair (n : PathFNode) : Option (Option Repair) :=
  lastRepairOf n.repairs

/-- Does a repair-cactus entry stand for a Shift, as matched by the
`num_shifts` closure and `ends_with_parse_at_least_shifts`. -/
def isShiftEntry : RepairMerge → Bool
  | .repair .shift => true
  | .merge .shift _ => true
  | _ => false

/-- The `num_shifts` closure of `PartialEq for PathFNode`: the number of
contiguous Shift entries at the newest end of the repair cactus. -/
def numShifts : List RepairMerge → Nat
  | [] => 0
  | x :: xs => if isShiftEntry x then numShifts xs + 1 else 0

/-- From `impl PartialEq for PathFNode` in cpctplus.rs: compatibility of two
path nodes.  `none` is the panic of `last_repair` on an empty cactus. -/
def PathFNode.eq (a b : PathFNode) : Option Bool :=
  if a.laidx ≠ b.laidx ∨ a.pstack ≠ b.pstack then some false
  else
    match lastRepairOf a.repairs, lastRepairOf b.repairs with
    | none, _ => none
    | _, none => none
    | some la, some lb =>
      match la, lb with
      | some .delete, some .delete =>
        some (numShifts a.repairs = numShifts b.repairs)
      | some .delete, _ => some false
      | _, some .delete => some false
      | _, _ => some (numShifts a.repairs = numShifts b.repairs)

/-- From `ends_with_parse_at_least_shifts` in cpctplus.rs: do the first
`PARSE_AT_LEAST` entries of the repair cactus all stand for Shifts? -/
def endsWithParseAtLeastShifts (repairs : List RepairMerge) : Bool :=
  let taken := repairs.take PARSE_AT_LEAST
  taken.length = PARSE_AT_LEAST && taken.all isShiftEntry

/-! ## Neighbour generation -/

/-- Largest value of the `u16` cost counter. -/
def U16_MAX : Nat := 2 ^ 16 - 1

/-- The `u16::checked_add` of the cost accumulation: `none` is the overflow
panic of the `unwrap` in `insert` and `delete`. -/
def checkedAdd (a b : Nat) : Option Nat :=
  if a + b ≤ U16_MAX then some (a + b) else none

namespace CPCTPlus

/-- The zero-length lexeme synthesized by `insert` for token `tidx` at the
offset of the next input lexeme. -/
def insLexeme (p : Parser) (n : PathFNode) (tidx : Nat) : Lexeme :=
  { tok := tidx, start := (p.nextLexeme n.laidx).start, len := 0 }

/-- One iteration of the loop of `CPCTPlus::insert` for a candidate token:
skip EOF, synthesize a zero-length lexeme, run one `lr_cactus` step with it,
and emit a neighbour exactly when the lookahead advanced. -/
def insertStep (p : Parser) (fuel : Nat) (n : PathFNode) (tidx : Nat) :
    Option (List (Nat × PathFNode)) :=
  if tidx = p.eofTokenIdx then some []
  else
    (lrCactus p fuel (some (insLexeme p n tidx)) n.laidx (n.laidx + 1)
        n.pstack).bind
      (fun res =>
        if n.laidx < res.1 then
          (checkedAdd n.cf (p.tokenCost tidx)).map (fun cf2 =>
            [(cf2,
              { pstack := res.2, laidx := n.laidx,
                repairs := .repair (.insertTerm tidx) :: n.repairs,
                cf := cf2 })])
        else some [])

/-- Sequence a list of fallible neighbour batches, in order; any panic
(`none`) aborts the whole computation, as in the source loop. -/
def seqAppend {α : Type} : List (Option (List α)) → Option (List α)
  | [] => some []
  | none :: _ => none
  | some xs :: rest =>
    match seqAppend rest with
    | some ys => some (xs ++ ys)
    | none => none

/-- From `CPCTPlus::insert` in cpctplus.rs: the Insert neighbours of `n`,
one candidate token per entry of `state_actions` of the top stack state.
`none` is a panic: empty parse stack, cost overflow, or (in this embedding)
fuel exhaustion inside `lr_cactus`. -/
def insert (p : Parser) (fuel : Nat) (n : PathFNode) :
    Option (List (Nat × PathFNode)) :=
  match n.pstack with
  | [] => none
  | top :: _ =>
    seqAppend ((p.stable.stateActions top).map (insertStep p fuel n))

/-- From `CPCTPlus::delete` in cpctplus.rs: the Delete neighbour of `n`,
generated unless the lookahead is at the end of the input; `none` is the
cost-overflow panic. -/
def delete (p : Parser) (n : PathFNode) : Option (List (Nat × PathFNode)) :=
  if n.laidx = p.lexemes.length then some []
  else
    (checkedAdd n.cf (p.tokenCost (p.nextTidx n.laidx))).map (fun cf2 =>
      [(cf2,
        { pstack := n.pstack, laidx := n.laidx + 1,
          repairs := .repair .delete :: n.repairs, cf := cf2 })])

/-- From `CPCTPlus::shift` in cpctplus.rs: run `lr_cactus` with no
synthesized lexeme; emit a neighbour exactly when the stack changed,
appending a Shift repair exactly when the lookahead advanced; the cost is
unchanged. -/
def shift (p : Parser) (fuel : Nat) (n : PathFNode) :
    Option (List (Nat × PathFNode)) :=
  (lrCactus p fuel none n.laidx (n.laidx + 1) n.pstack).map (fun res =>
    if n.pstack ≠ res.2 then
      [(n.cf,
        { pstack := res.2, laidx := res.1,
          repairs :=
            if n.laidx < res.1 then RepairMerge.repair .shift :: n.repairs
            else n.repairs,
          cf := n.cf })]
    else [])

/-- The neighbour closure passed to `dijkstra` by `CPCTPlus::recover`: on an
expired deadline report stop; otherwise Insert neighbours (suppressed after
a Delete, and only when `explore_all`), then Delete neighbours (only when
`explore_all`), then Shift neighbours.  The deadline test of the source
(`Instant::now() >= finish_by`) is embedded as the boolean
`deadlineExpired`. -/
def neighbours (p : Parser) (fuel : Nat) (exploreAll deadlineExpired : Bool)
    (n : PathFNode) : Option (Bool × List (Nat × PathFNode)) :=
  if deadlineExpired then some (false, [])
  else
    match lastRepairOf n.repairs with
    | none => none
    | some lr =>
      let insRes :=
        match lr with
        | some .delete => some []
        | _ => if exploreAll then insert p fuel n else some []
      let delRes := if exploreAll then delete p n else some []
      match insRes, delRes, shift p fuel n with
      | some i, some d, some s => some (true, i ++ d ++ s)
      | _, _, _ => none

/-- The merge closure passed to `dijkstra` by `CPCTPlus::recover`: merging a
new equal-and-compatible node into the canonical one.  `none` covers the two
panics: `val()` or `parent()` on an empty repair cactus, and the
`unreachable` arm for a terminator at the head. -/
def mergeNodes (old new : PathFNode) : Option PathFNode :=
  if old.repairs = new.repairs then some old
  else
    match old.repairs with
    | [] => none
    | .repair r :: rest =>
      some { old with repairs := .merge r [new.repairs] :: rest }
    | .merge r v :: rest =>
      some { old with repairs := .merge r (new.repairs :: v) :: rest }
    | .terminator :: _ => none

/-- The success closure passed to `dijkstra` by `CPCTPlus::recover`: a node
succeeds if its repairs end with `PARSE_AT_LEAST` Shifts, or the action at
the top state and current lookahead is Accept.  `none` is the `val()` panic
on an empty parse stack. -/
def isSuccess (p : Parser) (n : PathFNode) : Option Bool :=
  if endsWithParseAtLeastShifts n.repairs then some true
  else
    match n.pstack with
    | [] => none
    | top :: _ =>
      match p.stable.action top (p.nextTidx n.laidx) with
      | .accept => some true
      | _ => some false

end CPCTPlus

/-! ## Materializing repair sequences -/

/-- Externally visible repairs, from `enum ParseRepair` in parser.rs as used
by cpctplus.rs. -/
inductive ParseRepair where
  | insert (t : Nat)
  | delete (l : Lexeme)
  | shift (l : Lexeme)
deriving DecidableEq, Repr

/-- The `traverse` function nested in `CPCTPlus::collect_repairs`: walk a
repair cactus from the newest entry down, forking at every `merge` entry
into its alternate tails. -/
def traverse : List RepairMerge → List (List Repair)
  | [] => []
  | .terminator :: _ => []
  | .repair r :: rest =>
    let parents := traverse rest
    if parents = [] then [[r]] else parents.map (fun pc => pc ++ [r])
  | .merge r vc :: rest =>
    let parents := traverse rest
    (if parents = [] then [[r]] else parents.map (fun pc => pc ++ [r]))
      ++ (vc.attach.map (fun c => traverse c.1)).flatten
decreasing_by
  all_goals
    (try have := List.sizeOf_lt_of_mem c.2)
    simp_all
    try omega

/-- From `CPCTPlus::repair_to_parse_repair`: Insert is emitted as is; Delete
and Shift each consume one input lexeme at the running offset. -/
def repairToParseRepair (p : Parser) (laidx : Nat) :
    List Repair → List ParseRepair
  | [] => []
  | .insertTerm t :: rest =>
    .insert t :: repairToParseRepair p laidx rest
  | .delete :: rest =>
    .delete (p.nextLexeme laidx) :: repairToParseRepair p (laidx + 1) rest
  | .shift :: rest =>
    .shift (p.nextLexeme laidx) :: repairToParseRepair p (laidx + 1) rest

/-- From `CPCTPlus::collect_repairs`: all repair sequences of every success
node, each materialized from the same base lookahead index. -/
def collectRepairs (p : Parser) (inLaidx : Nat) (cnds : List PathFNode) :
    List (List (List ParseRepair)) :=
  cnds.map (fun cnd => (traverse cnd.repairs).map (repairToParseRepair p inLaidx))

/-- From `CPCTPlus::recover` in cpctplus.rs.  The search (`dijkstra` of the
`astar` module) and the `mf` module helpers `rank_cnds`,
`simplify_repairs` and `apply_repairs` live outside this tree, so they are
taken as explicit function arguments; the structure of the calls and both
empty-result early returns are as in the source. -/
def recover (p : Parser) (search : PathFNode → List PathFNode)
    (rank : List (List (List ParseRepair)) → List (List ParseRepair))
    (simplify : List (List ParseRepair) → List (List ParseRepair))
    (applyReps : Nat → List Nat → List ParseRepair → Nat)
    (inLaidx : Nat) (inPstack : List Nat) : Nat × List (List ParseRepair) :=
  let startNode : PathFNode :=
    { pstack := inPstack.reverse, laidx := inLaidx,
      repairs := [.terminator], cf := 0 }
  let astarCnds := search startNode
  if astarCnds.isEmpty then (inLaidx, [])
  else
    let fullRprs := collectRepairs p inLaidx astarCnds
    let rnkRprs := rank fullRprs
    if rnkRprs.isEmpty then (inLaidx, [])
    else
      let rnk2 := simplify rnkRprs
      (applyReps inLaidx inPstack (rnk2.headD []), rnk2)

/-! ## Grammars, FIRST sets and the FOLLOW computation -/

/-- A grammar symbol, from `enum Symbol` in cfgrammar. -/
inductive Symbol' where
  | token (t : Nat)
  | rule (r : Nat)
deriving DecidableEq, Repr

/-- The grammar data consumed by `YaccFollows::new`: the rule and token
counts, the ordered productions (each a rule index paired with its body),
the start rule and the EOF token index. -/
structure YaccGrammar where
  rulesLen : Nat
  tokensLen : Nat
  prods : List (Nat × List Symbol')
  startRuleIdx : Nat
  eofTokenIdx : Nat
deriving DecidableEq, Repr

/-- A FIRST table: per rule a token set and an epsilon bit, as read by
`YaccFollows::new` through `firsts()` and `is_epsilon_set()`. -/
structure YaccFirsts where
  firsts : List (Finset Nat)
  epsilons : List Bool
deriving DecidableEq

/-- The FIRST token set of rule `r`; out-of-range reads give the empty set
(the source would panic there, and well-formedness keeps indices in range). -/
def YaccFirsts.firstsOf (fi : YaccFirsts) (r : Nat) : Finset Nat :=
  (fi.firsts[r]?).getD ∅

/-- The epsilon bit of rule `r`. -/
def YaccFirsts.isEpsilonSet (fi : YaccFirsts) (r : Nat) : Bool :=
  (fi.epsilons[r]?).getD false

/-- A FOLLOW table under construction: one token set per rule. -/
abbrev FollowTable := List (Finset Nat)

/-- The token set of rule `r` in a FOLLOW table; out-of-range reads give the
empty set. -/
def getF (t : FollowTable) (r : Nat) : Finset Nat :=
  (t[r]?).getD ∅

/-- The single-bit `Vob::set` of the source with its changed flag: add token
`tok` to the set of rule `r`, reporting whether the bit was newly set. -/
def vobSet (t : FollowTable) (r tok : Nat) : FollowTable × Bool :=
  if tok ∈ getF t r then (t, false)
  else (t.set r (insert tok (getF t r)), true)

/-- The bitwise `Vob::or` of the source with its changed flag: union `src`
into the set of rule `r`, reporting whether any bit was newly set. -/
def vobOr (t : FollowTable) (r : Nat) (src : Finset Nat) : FollowTable × Bool :=
  if src ⊆ getF t r then (t, false)
  else (t.set r (getF t r ∪ src), true)

/-- The epsilon branch of `YaccFollows::new`: for every token index below
`tokensLen` that is in the set of `ridx`, set it in the set of `sRidx`. -/
def epsilonUnion (g : YaccGrammar) (t : FollowTable) (ridx sRidx : Nat) :
    FollowTable × Bool :=
  vobOr t sRidx (getF t ridx ∩ Finset.range g.tokensLen)

/-- The epsilon branch at a rule position of the scan of
`YaccFollows::new`: if everything to the right is nullable, union the FOLLOW
set of the production rule into the FOLLOW set of the rule at this
position. -/
def epsStep (g : YaccGrammar) (eps : Bool) (t : FollowTable) (ridx q : Nat) :
    FollowTable × Bool :=
  if eps then epsilonUnion g t ridx q else (t, false)

/-- The next-symbol branch at a rule position of the scan of
`YaccFollows::new`: a following token is set directly, the FIRST set of a
following rule is unioned in, and nothing happens at the end of the body. -/
def nextStep (fi : YaccFirsts) (q : Nat) (nxt : Option Symbol')
    (t : FollowTable) : FollowTable × Bool :=
  match nxt with
  | some (.token nxtTidx) => vobSet t q nxtTidx
  | some (.rule nxtRidx) => vobOr t q (fi.firstsOf nxtRidx)
  | none => (t, false)

/-- The full update performed at a rule position `q` of a production of
rule `ridx`: the epsilon branch followed by the next-symbol branch, with
the combined changed flag. -/
def ruleUpdate (g : YaccGrammar) (fi : YaccFirsts) (ridx q : Nat)
    (nxt : Option Symbol') (t : FollowTable) (eps : Bool) :
    FollowTable × Bool :=
  ((nextStep fi q nxt (epsStep g eps t ridx q).1).1,
   (epsStep g eps t ridx q).2 ||
     (nextStep fi q nxt (epsStep g eps t ridx q).1).2)

/-- The body scan of one production inside `YaccFollows::new`.  The source
walks the body right to left carrying an epsilon flag; here the suffix is
processed first, which performs the same updates in the same order.  Returns
the updated table, whether anything changed in this scan, and the epsilon
flag handed to the symbol to the left (true iff every symbol of the list is
a rule with its epsilon bit set). -/
def followsScan (g : YaccGrammar) (fi : YaccFirsts) (ridx : Nat) :
    List Symbol' → FollowTable → FollowTable × Bool × Bool
  | [], t => (t, false, true)
  | .token _ :: rest, t =>
    ((followsScan g fi ridx rest t).1, (followsScan g fi ridx rest t).2.1,
     false)
  | .rule q :: rest, t =>
    ((ruleUpdate g fi ridx q rest.head? (followsScan g fi ridx rest t).1
        (followsScan g fi ridx rest t).2.2).1,
     (followsScan g fi ridx rest t).2.1 ||
       (ruleUpdate g fi ridx q rest.head? (followsScan g fi ridx rest t).1
         (followsScan g fi ridx rest t).2.2).2,
     (followsScan g fi ridx rest t).2.2 && fi.isEpsilonSet q)

/-- One production step of the outer loop of `YaccFollows::new`. -/
def followsProd (g : YaccGrammar) (fi : YaccFirsts)
    (acc : FollowTable × Bool) (p : Nat × List Symbol') : FollowTable × Bool :=
  ((followsScan g fi p.1 p.2 acc.1).1,
   acc.2 || (followsScan g fi p.1 p.2 acc.1).2.1)

/-- One full pass of the fixed-point loop of `YaccFollows::new` over all
productions, with the changed flag. -/
def followsPass (g : YaccGrammar) (fi : YaccFirsts) (t : FollowTable) :
    FollowTable × Bool :=
  g.prods.foldl (followsProd g fi) (t, false)

/-- The fixed-point loop of `YaccFollows::new`: repeat passes until one
makes no change.  The source loops unboundedly; the bitset lattice is finite,
and `YaccFollows.new` below supplies enough fuel to reach the fixed point. -/
def followsAux (g : YaccGrammar) (fi : YaccFirsts) :
    Nat → FollowTable → FollowTable
  | 0, t => t
  | fuel + 1, t =>
    if (followsPass g fi t).2 then followsAux g fi fuel (followsPass g fi t).1
    else t

/-- The initial FOLLOW table of `YaccFollows::new`: all sets empty except
EOF in the set of the start rule. -/
def followsInit (g : YaccGrammar) : FollowTable :=
  (List.replicate g.rulesLen (∅ : Finset Nat)).set g.startRuleIdx
    {g.eofTokenIdx}

/-- From `YaccFollows::new` in follows.rs.  The source reads the FIRST table
from the grammar; here it is passed explicitly. -/
def YaccFollows.new (g : YaccGrammar) (fi : YaccFirsts) : FollowTable :=
  followsAux g fi (g.rulesLen * g.tokensLen + 1) (followsInit g)

/-- From `YaccFollows::is_set` in follows.rs. -/
def YaccFollows.isSet (t : FollowTable) (ridx tidx : Nat) : Bool :=
  tidx ∈ getF t ridx

/-! ## A FIRST computation, and derivations

The FIRST table consumed by `YaccFollows::new` is built by `YaccFirsts::new`
in firsts.rs, which is not part of this tree. -/

/-- Modelled from the spec: the left-to-right walk of one production body in
the FIRST fixed point (section 4.2): returns the tokens to add to the FIRST
set of the rule and whether the walk ran off the end (every symbol was a
nullable rule). -/
def firstsScan (fi : YaccFirsts) : List Symbol' → Finset Nat × Bool
  | [] => (∅, true)
  | .token tk :: _ => ({tk}, false)
  | .rule q :: rest =>
    if fi.isEpsilonSet q then
      let (s, e) := firstsScan fi rest
      (fi.firstsOf q ∪ s, e)
    else (fi.firstsOf q, false)

/-- Modelled from the spec: one full pass of the FIRST fixed point over all
productions (section 4.2). -/
def firstsStep (g : YaccGrammar) (fi : YaccFirsts) : YaccFirsts :=
  g.prods.foldl
    (fun acc p =>
      let (s, e) := firstsScan acc p.2
      { firsts := acc.firsts.set p.1 (acc.firstsOf p.1 ∪ s),
        epsilons := acc.epsilons.set p.1 (acc.isEpsilonSet p.1 || e) })
    fi

/-- Modelled from the spec: iterate FIRST passes until no change. -/
def firstsAux (g : YaccGrammar) : Nat → YaccFirsts → YaccFirsts
  | 0, fi => fi
  | fuel + 1, fi =>
    let fi2 := firstsStep g fi
    if fi2 = fi then fi else firstsAux g fuel fi2

/-- Modelled from the spec: `YaccFirsts::new` (section 4.2), the least fixed
point of the FIRST rules, starting from empty sets and false epsilon bits. -/
def YaccFirsts.new (g : YaccGrammar) : YaccFirsts :=
  firstsAux g (g.rulesLen * (g.tokensLen + 1) + 1)
    { firsts := List.replicate g.rulesLen ∅,
      epsilons := List.replicate g.rulesLen false }

/-- The FIRST set of a sentential suffix, following the words of the claim:
the first symbol contributes its tokens, and later symbols contribute only
through nullable rules; the epsilon marker itself is excluded. -/
def firstSeq (fi : YaccFirsts) : List Symbol' → Finset Nat
  | [] => ∅
  | .token tk :: _ => {tk}
  | .rule q :: rest =>
    fi.firstsOf q ∪ (if fi.isEpsilonSet q then firstSeq fi rest else ∅)

/-- One derivation step on sentential forms: replace one rule occurrence by
the body of one of its productions. -/
inductive DerivStep (g : YaccGrammar) : List Symbol' → List Symbol' → Prop
  | expand (al bl : List Symbol') (r : Nat) (body : List Symbol')
      (hmem : (r, body) ∈ g.prods) :
      DerivStep g (al ++ Symbol'.rule r :: bl) (al ++ body ++ bl)

/-- Derivability: the reflexive-transitive closure of `DerivStep`.  The
sentential forms of the grammar are those derivable from the start rule. -/
inductive Derives (g : YaccGrammar) : List Symbol' → List Symbol' → Prop
  | refl (sf : List Symbol') : Derives g sf sf
  | tail (a b c : List Symbol') : Derives g a b → DerivStep g b c → Derives g a c

/-! ## Well-formedness, ordering and measure for the FOLLOW fixed point -/

/-- Is every symbol of the list a rule whose epsilon bit is set?  This is
the value of the epsilon flag of the right-to-left scan of
`YaccFollows::new` on entering the position to the left of the list. -/
def allNullable (fi : YaccFirsts) : List Symbol' → Bool
  | [] => true
  | .token _ :: _ => false
  | .rule q :: rest => fi.isEpsilonSet q && allNullable fi rest

/-- Is a symbol index in range for the grammar? -/
def symOk (g : YaccGrammar) : Symbol' → Bool
  | .token tk => decide (tk < g.tokensLen)
  | .rule r => decide (r < g.rulesLen)

/-- Well-formedness of a grammar: the start rule, EOF token and every index
occurring in a production are in range. -/
def wfg (g : YaccGrammar) : Bool :=
  decide (g.startRuleIdx < g.rulesLen) &&
  decide (g.eofTokenIdx < g.tokensLen) &&
  g.prods.all (fun p => decide (p.1 < g.rulesLen) && p.2.all (symOk g))

/-- Well-formedness of a FIRST table for a grammar: every stored set only
holds token indices in range. -/
def wfFirsts (g : YaccGrammar) (fi : YaccFirsts) : Bool :=
  fi.firsts.all (fun s => decide (s ⊆ Finset.range g.tokensLen))

/-- Total number of set bits of a FOLLOW table, the termination measure of
the fixed-point loop. -/
def measF (t : FollowTable) : Nat := (t.map Finset.card).sum

/-- Pointwise inclusion of FOLLOW tables of the same length; every update
performed by `YaccFollows::new` is inflationary for this order. -/
def tleF (t t2 : FollowTable) : Prop :=
  t2.length = t.length ∧ ∀ i, getF t i ⊆ getF t2 i

/-- Boundedness of a FOLLOW table: every set only holds token indices in
range. -/
def boundedF (g : YaccGrammar) (t : FollowTable) : Prop :=
  ∀ s ∈ t, s ⊆ Finset.range g.tokensLen

/-! ## Concrete instances used for witnesses and counterexamples -/

/-- A small concrete parser: token 0 shifts from state 0 to state 1; token 1
in state 1 reduces production 0 (length 1, rule 0) with goto 5, where the
action on token 1 is Error; token 2 is EOF and accepts in state 1. -/
def egP : Parser :=
  { stable :=
      { action := fun st tok =>
          match st, tok with
          | 0, 0 => .shift 1
          | 1, 2 => .accept
          | 1, 1 => .reduce 0
          | _, _ => .error
        stateActions := fun st =>
          if st = 0 then [0] else if st = 1 then [1, 2] else []
        goto := fun s r => if s = 0 ∧ r = 0 then some 5 else none }
    lexemes := [{ tok := 1, start := 0, len := 1 }]
    tokenCost := fun _ => 1
    eofTokenIdx := 2
    prodLen := fun _ => 1
    prodToRule := fun _ => 0
    eofStart := 1 }

/-- A start node for `egP` at the error position. -/
def n0 : PathFNode :=
  { pstack := [0], laidx := 0, repairs := [.terminator], cf := 0 }

/-- The node reached from `n0` by inserting token 0. -/
def n1 : PathFNode :=
  { pstack := [1, 0], laidx := 0,
    repairs := [.repair (.insertTerm 0), .terminator], cf := 1 }

/-- A node whose cost counter is saturated at the `u16` maximum. -/
def nMax : PathFNode :=
  { pstack := [0], laidx := 0, repairs := [.terminator], cf := U16_MAX }

/-- The grammar with productions S: Q W c, Q: q, W: (empty); rules S = 0,
Q = 1, W = 2 and tokens q = 0, c = 1, EOF = 2.  W is nullable, so in the
first production the rule Q is followed by the suffix W c whose FIRST set
is the token c. -/
def gC : YaccGrammar :=
  { rulesLen := 3, tokensLen := 3,
    prods := [(0, [.rule 1, .rule 2, .token 1]), (1, [.token 0]), (2, [])],
    startRuleIdx := 0, eofTokenIdx := 2 }

/-- The FIRST table of `gC`. -/
def fiC : YaccFirsts := YaccFirsts.new gC

/-! ## Helper lemmas for the neighbour generators -/

/-- Does a repair cactus end (at its newest entry) with a Delete? -/
def endsDelete : List RepairMerge → Bool
  | .repair .delete :: _ => true
  | .merge .delete _ :: _ => true
  | _ => false

/-- Does a repair-cactus entry stand for an Insert? -/
def isInsertEntry : RepairMerge → Bool
  | .repair (.insertTerm _) => true
  | .merge (.insertTerm _) _ => true
  | _ => false

theorem lastRepairOf_of_ne_nil {rs : List RepairMerge} (h : rs ≠ []) :
    ∃ lr, lastRepairOf rs = some lr := by
  match rs with
  | [] => exact absurd rfl h
  | .repair r :: _ => exact ⟨some r, rfl⟩
  | .merge r _ :: _ => exact ⟨some r, rfl⟩
  | .terminator :: _ => exact ⟨none, rfl⟩

theorem mem_seqAppend {α : Type} :
    ∀ {l : List (Option (List α))} {out : List α},
      CPCTPlus.seqAppend l = some out →
      ∀ x, x ∈ out ↔ ∃ o ∈ l, ∃ xs, o = some xs ∧ x ∈ xs := by
  intro l
  induction l with
  | nil =>
    intro out h x
    simp [CPCTPlus.seqAppend] at h
    subst h
    simp
  | cons o rest ih =>
    intro out h x
    match o with
    | none => simp [CPCTPlus.seqAppend] at h
    | some xs =>
      match hr : CPCTPlus.seqAppend rest with
      | none => simp [CPCTPlus.seqAppend, hr] at h
      | some ys =>
        simp [CPCTPlus.seqAppend, hr] at h
        subst h
        simp [ih hr x]
        try tauto

theorem seqAppend_isSome {α : Type} :
    ∀ {l : List (Option (List α))},
      (∀ o ∈ l, ∃ xs, o = some xs) → ∃ out, CPCTPlus.seqAppend l = some out := by
  intro l
  induction l with
  | nil => exact fun _ => ⟨[], rfl⟩
  | cons o rest ih =>
    intro h
    obtain ⟨xs, hxs⟩ := h o (List.mem_cons_self o rest)
    obtain ⟨ys, hys⟩ := ih (fun o ho => h o (List.mem_cons_of_mem _ ho))
    exact ⟨xs ++ ys, by simp [CPCTPlus.seqAppend, hxs, hys]⟩

theorem seqAppend_eq_none {α : Type} :
    ∀ {l : List (Option (List α))}, none ∈ l → CPCTPlus.seqAppend l = none := by
  intro l
  induction l with
  | nil => simp
  | cons o rest ih =>
    intro h
    rcases List.mem_cons.1 h with h1 | h1
    · subst h1
      rfl
    · cases o with
      | none => rfl
      | some xs => simp [CPCTPlus.seqAppend, ih h1]

theorem takeShifts_iff : ∀ (k : Nat) (rs : List RepairMerge),
    ((rs.take k).length = k ∧ (rs.take k).all isShiftEntry = true) ↔
      k ≤ numShifts rs := by
  intro k
  induction k with
  | zero => intro rs; simp
  | succ k ih =>
    intro rs
    cases rs with
    | nil => simp [numShifts]
    | cons x xs =>
      by_cases hx : isShiftEntry x
      · simp [hx, numShifts, ← ih xs]
      · simp [hx, numShifts]

theorem endsWithShifts_iff (rs : List RepairMerge) :
    endsWithParseAtLeastShifts rs = true ↔ PARSE_AT_LEAST ≤ numShifts rs := by
  rw [← takeShifts_iff PARSE_AT_LEAST rs]
  unfold endsWithParseAtLeastShifts
  simp

/-- C8: if the repair search yields no success nodes at all (in particular
when the deadline expires before any success is found), `recover` returns
the incoming lookahead index unchanged and an empty list of repair
sequences, for every choice of the external ranking, simplification and
replay functions. -/
theorem recover_no_success (p : Parser) (search : PathFNode → List PathFNode)
    (rank : List (List (List ParseRepair)) → List (List ParseRepair))
    (simplify : List (List ParseRepair) → List (List ParseRepair))
    (applyReps : Nat → List Nat → List ParseRepair → Nat)
    (inLaidx : Nat) (inPstack : List Nat)
    (h : search { pstack := inPstack.reverse, laidx := inLaidx,
                  repairs := [.terminator], cf := 0 } = []) :
    recover p search rank simplify applyReps inLaidx inPstack =
      (inLaidx, []) := by
  simp [recover, h]

/-- Witness for C8 at a concrete parser, stack and search function. -/
theorem recover_no_success_witness :
    ((fun _ : PathFNode => ([] : List PathFNode))
        { pstack := ([0] : List Nat).reverse, laidx := 0,
          repairs := [.terminator], cf := 0 } = []) ∧
      recover egP (fun _ => []) (fun _ => []) id (fun l _ _ => l) 0 [0] =
        (0, []) :=
  ⟨rfl,
   recover_no_success egP (fun _ => []) (fun _ => []) id (fun l _ _ => l) 0 [0]
     rfl⟩

/-- C5: when `mergeNodes` merges a compatible new node into an existing one,
a plain top repair entry `Repair(r)` becomes `Merge(r, [new.repairs])`, an
existing `Merge(r, v)` becomes `Merge(r, new.repairs :: v)` so that no
recorded alternative is ever dropped, only the repair cactus of the old
node changes, and the merge is a no-op exactly when the two repair cactuses
are identical. -/
theorem mergeNodes_spec (old new m : PathFNode)
    (hm : CPCTPlus.mergeNodes old new = some m) :
    (m = old ↔ old.repairs = new.repairs) ∧
    (∀ r rest, old.repairs = .repair r :: rest → old.repairs ≠ new.repairs →
      m = { old with repairs := .merge r [new.repairs] :: rest }) ∧
    (∀ r v rest, old.repairs = .merge r v :: rest → old.repairs ≠ new.repairs →
      m = { old with repairs := .merge r (new.repairs :: v) :: rest }) ∧
    m.pstack = old.pstack ∧ m.laidx = old.laidx ∧ m.cf = old.cf := by
  unfold CPCTPlus.mergeNodes at hm
  by_cases heq : old.repairs = new.repairs
  · rw [if_pos heq] at hm
    cases hm
    refine ⟨by simp [heq], ?_, ?_, rfl, rfl, rfl⟩
    · intro r rest _ hne; exact absurd heq hne
    · intro r v rest _ hne; exact absurd heq hne
  · rw [if_neg heq] at hm
    split at hm
    · cases hm
    · rename_i r rest hrep
      cases hm
      refine ⟨?_, ?_, ?_, rfl, rfl, rfl⟩
      · refine iff_of_false ?_ heq
        intro hmo
        have h1 := congrArg PathFNode.repairs hmo
        rw [hrep] at h1
        simp at h1
      · intro r2 rest2 h2 _
        rw [hrep] at h2
        injection h2 with h3 h4
        injection h3 with h5
        subst h5
        subst h4
        rfl
      · intro r2 v2 rest2 h2 _
        rw [hrep] at h2
        injection h2 with h3 _
        exact absurd h3 (by simp)
    · rename_i r v rest hrep
      cases hm
      refine ⟨?_, ?_, ?_, rfl, rfl, rfl⟩
      · refine iff_of_false ?_ heq
        intro hmo
        have h1 := congrArg PathFNode.repairs hmo
        rw [hrep] at h1
        injection h1 with h5 _
        injection h5 with _ h6
        have hlen := congrArg List.length h6
        simp at hlen
      · intro r2 rest2 h2 _
        rw [hrep] at h2
        injection h2 with h3 _
        exact absurd h3 (by simp)
      · intro r2 v2 rest2 h2 _
        rw [hrep] at h2
        injection h2 with h3 h4
        injection h3 with h5 h6
        subst h5
        subst h6
        subst h4
        rfl
    · cases hm

/-- Witness for C5: merging a Delete tail into `n1`, whose top entry is a
plain Insert repair. -/
theorem mergeNodes_spec_witness :
    CPCTPlus.mergeNodes n1 { n1 with repairs := [.repair .delete, .terminator] } =
      some { n1 with repairs :=
        [.merge (.insertTerm 0) [[.repair .delete, .terminator]],
         .terminator] } ∧
    ({ n1 with repairs :=
        [.merge (.insertTerm 0) [[.repair .delete, .terminator]],
         .terminator] } = n1 ↔
      n1.repairs = [.repair .delete, .terminator]) :=
  ⟨by decide,
   (mergeNodes_spec n1 { n1 with repairs := [.repair .delete, .terminator] }
      _ (by decide)).1⟩

theorem endsDelete_eq (rs : List RepairMerge) (la : Option Repair)
    (h : lastRepairOf rs = some la) :
    endsDelete rs = decide (la = some Repair.delete) := by
  match rs with
  | [] => simp [lastRepairOf] at h
  | .repair r :: _ =>
    simp [lastRepairOf] at h
    subst h
    cases r <;> rfl
  | .merge r _ :: _ =>
    simp [lastRepairOf] at h
    subst h
    cases r <;> rfl
  | .terminator :: _ =>
    simp [lastRepairOf] at h
    subst h
    rfl

/-- C3: two path nodes compare equal under the source equality (and are
hence mergeable) if and only if their `laidx` values are equal, their
`pstack` values are equal as sequences of state indices, their repair lists
end with the same number of trailing Shift entries, and one ends with a
Delete exactly when the other does. -/
theorem pathFNodeEq_iff (a b : PathFNode)
    (ha : a.repairs ≠ []) (hb : b.repairs ≠ []) :
    PathFNode.eq a b = some true ↔
      (a.laidx = b.laidx ∧ a.pstack = b.pstack ∧
        numShifts a.repairs = numShifts b.repairs ∧
        endsDelete a.repairs = endsDelete b.repairs) := by
  obtain ⟨la, hla⟩ := lastRepairOf_of_ne_nil ha
  obtain ⟨lb, hlb⟩ := lastRepairOf_of_ne_nil hb
  unfold PathFNode.eq
  rw [hla, hlb, endsDelete_eq a.repairs la hla, endsDelete_eq b.repairs lb hlb]
  by_cases hl : a.laidx = b.laidx
  · by_cases hp : a.pstack = b.pstack
    · rw [if_neg (by simp [hl, hp])]
      match la, lb with
      | some .delete, some .delete => simp [hl, hp]
      | some .delete, some (.insertTerm t) => simp [hl, hp]
      | some .delete, some .shift => simp [hl, hp]
      | some .delete, none => simp [hl, hp]
      | some (.insertTerm t), some .delete => simp [hl, hp]
      | some .shift, some .delete => simp [hl, hp]
      | none, some .delete => simp [hl, hp]
      | some (.insertTerm t), some (.insertTerm u) => simp [hl, hp]
      | some (.insertTerm t), some .shift => simp [hl, hp]
      | some (.insertTerm t), none => simp [hl, hp]
      | some .shift, some (.insertTerm u) => simp [hl, hp]
      | some .shift, some .shift => simp [hl, hp]
      | some .shift, none => simp [hl, hp]
      | none, some (.insertTerm u) => simp [hl, hp]
      | none, some .shift => simp [hl, hp]
      | none, none => simp [hl, hp]
    · rw [if_pos (by simp [hp])]
      simp [hp]
  · rw [if_pos (by simp [hl])]
    simp [hl]

/-- Witness for C3 at two concrete nodes with distinct repair tails of the
same shape. -/
theorem pathFNodeEq_iff_witness :
    (n1.repairs ≠ [] ∧
      ({ n1 with repairs := [.repair (.insertTerm 9), .terminator] } :
          PathFNode).repairs ≠ []) ∧
    (PathFNode.eq n1 { n1 with repairs := [.repair (.insertTerm 9), .terminator] } =
        some true ↔
      (n1.laidx = n1.laidx ∧ n1.pstack = n1.pstack ∧
        numShifts n1.repairs =
          numShifts [.repair (.insertTerm 9), .terminator] ∧
        endsDelete n1.repairs =
          endsDelete [.repair (.insertTerm 9), .terminator])) :=
  ⟨⟨by decide, by decide⟩,
   pathFNodeEq_iff n1 { n1 with repairs := [.repair (.insertTerm 9), .terminator] }
     (by decide) (by decide)⟩

/-- C4: a node is classified a success exactly when its repair list ends
with `PARSE_AT_LEAST` (= 3) trailing Shift entries or the action of the
state table at the top parse-stack state and the current lookahead token is
Accept. -/
theorem isSuccess_iff (p : Parser) (n : PathFNode) (top : Nat)
    (htop : n.pstack.head? = some top) :
    (CPCTPlus.isSuccess p n = some true ↔
      (PARSE_AT_LEAST ≤ numShifts n.repairs ∨
        p.stable.action top (p.nextTidx n.laidx) = Action'.accept)) ∧
    PARSE_AT_LEAST = 3 := by
  refine ⟨?_, rfl⟩
  unfold CPCTPlus.isSuccess
  by_cases he : endsWithParseAtLeastShifts n.repairs
  · rw [if_pos he]
    simp [(endsWithShifts_iff _).1 he]
  · rw [if_neg he]
    have hn : ¬ PARSE_AT_LEAST ≤ numShifts n.repairs :=
      fun hc => he ((endsWithShifts_iff _).2 hc)
    rcases hps : n.pstack with _ | ⟨t, rest⟩
    · rw [hps] at htop
      simp at htop
    · rw [hps] at htop
      simp at htop
      rw [htop]
      cases haction : p.stable.action top (p.nextTidx n.laidx) <;>
        simp [haction, hn]

/-- Witness for C4 at a concrete accepting node. -/
theorem isSuccess_iff_witness :
    (({ n1 with laidx := 1 } : PathFNode).pstack.head? = some 1) ∧
    ((CPCTPlus.isSuccess egP { n1 with laidx := 1 } = some true ↔
      (PARSE_AT_LEAST ≤ numShifts ({ n1 with laidx := 1 } : PathFNode).repairs ∨
        egP.stable.action 1 (egP.nextTidx 1) = Action'.accept)) ∧
      PARSE_AT_LEAST = 3) :=
  ⟨by decide, isSuccess_iff egP { n1 with laidx := 1 } 1 (by decide)⟩

theorem checkedAdd_some (a b c : Nat) (h : checkedAdd a b = some c) :
    c = a + b ∧ a + b ≤ U16_MAX := by
  unfold checkedAdd at h
  split at h
  · cases h
    exact ⟨rfl, by assumption⟩
  · cases h

theorem checkedAdd_of_le (a b : Nat) (h : a + b ≤ U16_MAX) :
    checkedAdd a b = some (a + b) := by
  unfold checkedAdd
  rw [if_pos h]

theorem checkedAdd_of_gt (a b : Nat) (h : U16_MAX < a + b) :
    checkedAdd a b = none := by
  unfold checkedAdd
  rw [if_neg (by omega)]

theorem insertStep_mem (p : Parser) (fuel : Nat) (n : PathFNode) (t : Nat)
    (xs : List (Nat × PathFNode)) (h : CPCTPlus.insertStep p fuel n t = some xs) :
    ∀ c m, (c, m) ∈ xs →
      t ≠ p.eofTokenIdx ∧ c = m.cf ∧ m.cf = n.cf + p.tokenCost t ∧
      n.cf + p.tokenCost t ≤ U16_MAX ∧ m.laidx = n.laidx ∧
      m.repairs = .repair (.insertTerm t) :: n.repairs ∧
      ∃ nl st, lrCactus p fuel (some (CPCTPlus.insLexeme p n t)) n.laidx
          (n.laidx + 1) n.pstack = some (nl, st) ∧ n.laidx < nl ∧
          m.pstack = st := by
  intro c m hm
  unfold CPCTPlus.insertStep at h
  by_cases ht : t = p.eofTokenIdx
  · rw [if_pos ht] at h
    injection h with h1
    rw [← h1] at hm
    simp at hm
  · rw [if_neg ht] at h
    match hlr : lrCactus p fuel (some (CPCTPlus.insLexeme p n t)) n.laidx
        (n.laidx + 1) n.pstack with
    | none => rw [hlr] at h; simp at h
    | some (nl, st) =>
      rw [hlr] at h
      by_cases hadv : n.laidx < nl
      · match hadd : checkedAdd n.cf (p.tokenCost t) with
        | none => rw [hadd] at h; simp [hadv] at h
        | some cf2 =>
          rw [hadd] at h
          simp [hadv] at h
          subst h
          simp at hm
          obtain ⟨hc, hmm⟩ := hm
          obtain ⟨hsum, hle⟩ := checkedAdd_some _ _ _ hadd
          subst hmm
          exact ⟨ht, by simp [hc, hsum], by simp [hsum], hle, rfl, rfl,
            nl, st, rfl, hadv, rfl⟩
      · simp [hadv] at h
        subst h
        simp at hm

theorem insertStep_emits (p : Parser) (fuel : Nat) (n : PathFNode) (t nl : Nat)
    (st : List Nat) (ht : t ≠ p.eofTokenIdx)
    (hlr : lrCactus p fuel (some (CPCTPlus.insLexeme p n t)) n.laidx
        (n.laidx + 1) n.pstack = some (nl, st))
    (hadv : n.laidx < nl) (hcost : n.cf + p.tokenCost t ≤ U16_MAX) :
    CPCTPlus.insertStep p fuel n t =
      some [(n.cf + p.tokenCost t,
        { pstack := st, laidx := n.laidx,
          repairs := .repair (.insertTerm t) :: n.repairs,
          cf := n.cf + p.tokenCost t })] := by
  unfold CPCTPlus.insertStep
  rw [if_neg ht, hlr]
  simp [hadv, checkedAdd_of_le _ _ hcost]

theorem insertStep_no_advance (p : Parser) (fuel : Nat) (n : PathFNode)
    (t nl : Nat) (st : List Nat) (ht : t ≠ p.eofTokenIdx)
    (hlr : lrCactus p fuel (some (CPCTPlus.insLexeme p n t)) n.laidx
        (n.laidx + 1) n.pstack = some (nl, st))
    (hadv : ¬ n.laidx < nl) :
    CPCTPlus.insertStep p fuel n t = some [] := by
  unfold CPCTPlus.insertStep
  rw [if_neg ht, hlr]
  simp [hadv]

theorem insertStep_overflow (p : Parser) (fuel : Nat) (n : PathFNode)
    (t nl : Nat) (st : List Nat) (ht : t ≠ p.eofTokenIdx)
    (hlr : lrCactus p fuel (some (CPCTPlus.insLexeme p n t)) n.laidx
        (n.laidx + 1) n.pstack = some (nl, st))
    (hadv : n.laidx < nl) (hover : U16_MAX < n.cf + p.tokenCost t) :
    CPCTPlus.insertStep p fuel n t = none := by
  unfold CPCTPlus.insertStep
  rw [if_neg ht, hlr]
  simp [hadv, checkedAdd_of_gt _ _ hover]

theorem insertStep_isSome (p : Parser) (fuel : Nat) (n : PathFNode) (t : Nat)
    (hlr : (lrCactus p fuel (some (CPCTPlus.insLexeme p n t)) n.laidx
        (n.laidx + 1) n.pstack).isSome)
    (hcost : n.cf + p.tokenCost t ≤ U16_MAX) :
    ∃ xs, CPCTPlus.insertStep p fuel n t = some xs := by
  by_cases ht : t = p.eofTokenIdx
  · exact ⟨[], by unfold CPCTPlus.insertStep; rw [if_pos ht]⟩
  · match hl : lrCactus p fuel (some (CPCTPlus.insLexeme p n t)) n.laidx
        (n.laidx + 1) n.pstack with
    | none => rw [hl] at hlr; simp at hlr
    | some (nl, st) =>
      by_cases hadv : n.laidx < nl
      · exact ⟨_, insertStep_emits p fuel n t nl st ht hl hadv hcost⟩
      · exact ⟨[], insertStep_no_advance p fuel n t nl st ht hl hadv⟩

/-- C10: every neighbour emitted by `insert` keeps the lookahead index of
its parent node, even though the underlying `lr_cactus` run reports an
advanced lookahead for the synthesized zero-length lexeme. -/
theorem insert_keeps_laidx (p : Parser) (fuel : Nat) (n : PathFNode)
    (out : List (Nat × PathFNode)) (h : CPCTPlus.insert p fuel n = some out) :
    ∀ c m, (c, m) ∈ out → m.laidx = n.laidx ∧
      ∃ top rest t nl st, n.pstack = top :: rest ∧
        t ∈ p.stable.stateActions top ∧
        lrCactus p fuel (some (CPCTPlus.insLexeme p n t)) n.laidx
          (n.laidx + 1) n.pstack = some (nl, st) ∧
        n.laidx < nl ∧ m.pstack = st := by
  intro c m hm
  unfold CPCTPlus.insert at h
  cases hps : n.pstack with
  | nil => rw [hps] at h; cases h
  | cons top rest =>
    rw [hps] at h
    obtain ⟨o, ho, xs, hoxs, hmxs⟩ := ((mem_seqAppend h) (c, m)).1 hm
    obtain ⟨t, htmem, hto⟩ := List.mem_map.1 ho
    rw [hoxs] at hto
    obtain ⟨_, _, _, _, hlai, _, nl, st, hlr, hadv, hpst⟩ :=
      insertStep_mem p fuel n t xs hto c m hmxs
    rw [hps] at hlr
    exact ⟨hlai, top, rest, t, nl, st, rfl, htmem, hlr, hadv, hpst⟩

/-- Witness for C10 at the concrete parser `egP` and node `n0`. -/
theorem insert_keeps_laidx_witness :
    CPCTPlus.insert egP 10 n0 = some [(1, n1)] ∧ n1.laidx = n0.laidx :=
  ⟨by decide,
   (insert_keeps_laidx egP 10 n0 [(1, n1)] (by decide) 1 n1 (by decide)).1⟩

/-- C7: every neighbour produced by `insert`, `delete` or `shift` from a
node `n` has accumulated cost at least that of `n`: cost is monotonically
non-decreasing along search edges. -/
theorem neighbour_cost_monotone (p : Parser) (fuel : Nat) (n : PathFNode)
    (o1 o2 o3 : List (Nat × PathFNode))
    (h1 : CPCTPlus.insert p fuel n = some o1)
    (h2 : CPCTPlus.delete p n = some o2)
    (h3 : CPCTPlus.shift p fuel n = some o3) :
    ∀ c m, (c, m) ∈ o1 ++ o2 ++ o3 → n.cf ≤ m.cf := by
  intro c m hm
  rcases List.mem_append.1 hm with hm1 | hm3
  · rcases List.mem_append.1 hm1 with hmi | hmd
    · unfold CPCTPlus.insert at h1
      cases hps : n.pstack with
      | nil => rw [hps] at h1; cases h1
      | cons top rest =>
        rw [hps] at h1
        obtain ⟨o, ho, xs, hoxs, hmxs⟩ := ((mem_seqAppend h1) (c, m)).1 hmi
        obtain ⟨t, htmem, hto⟩ := List.mem_map.1 ho
        rw [hoxs] at hto
        obtain ⟨_, _, hcf, _, _, _, _⟩ :=
          insertStep_mem p fuel n t xs hto c m hmxs
        omega
    · unfold CPCTPlus.delete at h2
      split at h2
      · injection h2 with h4
        rw [← h4] at hmd
        simp at hmd
      · match hadd : checkedAdd n.cf (p.tokenCost (p.nextTidx n.laidx)) with
        | none => rw [hadd] at h2; simp at h2
        | some cf2 =>
          rw [hadd] at h2
          simp at h2
          rw [← h2] at hmd
          simp at hmd
          obtain ⟨_, hmd⟩ := hmd
          obtain ⟨hsum, _⟩ := checkedAdd_some _ _ _ hadd
          subst hmd
          simp [hsum]
  · unfold CPCTPlus.shift at h3
    match hlr : lrCactus p fuel none n.laidx (n.laidx + 1) n.pstack with
    | none => rw [hlr] at h3; simp at h3
    | some (nl, st) =>
      rw [hlr] at h3
      simp at h3
      by_cases hst : n.pstack = st
      · rw [if_pos hst] at h3
        subst h3
        simp at hm3
      · rw [if_neg hst] at h3
        subst h3
        simp at hm3
        obtain ⟨_, hm3⟩ := hm3
        subst hm3
        simp

/-- Witness for C7 at the concrete parser `egP` and node `n0`. -/
theorem neighbour_cost_monotone_witness :
    CPCTPlus.insert egP 10 n0 = some [(1, n1)] ∧
    CPCTPlus.delete egP n0 =
      some [(1, { pstack := [0], laidx := 1,
                  repairs := [.repair .delete, .terminator], cf := 1 })] ∧
    CPCTPlus.shift egP 10 n0 = some [] ∧ n0.cf ≤ n1.cf :=
  ⟨by decide, by decide, by decide,
   neighbour_cost_monotone egP 10 n0 [(1, n1)]
     [(1, { pstack := [0], laidx := 1,
            repairs := [.repair .delete, .terminator], cf := 1 })] []
     (by decide) (by decide) (by decide) 1 n1 (by decide)⟩

/-- C9: the accumulated cost is a 16-bit unsigned counter and an addition
of a token cost that would overflow it aborts (the `checked_add` unwrap
panics): `delete` aborts exactly on overflow, `insert` aborts when the cost
of an emitted candidate would overflow, and under the precondition that the
parent cost plus the token cost stays within the counter neither `insert`
nor `delete` aborts. -/
theorem cost_overflow_behaviour (p : Parser) (n : PathFNode) :
    (n.laidx ≠ p.lexemes.length →
      U16_MAX < n.cf + p.tokenCost (p.nextTidx n.laidx) →
      CPCTPlus.delete p n = none) ∧
    (n.cf + p.tokenCost (p.nextTidx n.laidx) ≤ U16_MAX →
      ∃ o, CPCTPlus.delete p n = some o) ∧
    (∀ fuel top rest, n.pstack = top :: rest →
      (∀ t ∈ p.stable.stateActions top,
        (lrCactus p fuel (some (CPCTPlus.insLexeme p n t)) n.laidx
          (n.laidx + 1) n.pstack).isSome) →
      (∀ t ∈ p.stable.stateActions top, n.cf + p.tokenCost t ≤ U16_MAX) →
      ∃ o, CPCTPlus.insert p fuel n = some o) ∧
    (∀ fuel top rest, n.pstack = top :: rest →
      (∃ t ∈ p.stable.stateActions top, t ≠ p.eofTokenIdx ∧
        (∃ nl st, lrCactus p fuel (some (CPCTPlus.insLexeme p n t)) n.laidx
          (n.laidx + 1) n.pstack = some (nl, st) ∧ n.laidx < nl) ∧
        U16_MAX < n.cf + p.tokenCost t) →
      CPCTPlus.insert p fuel n = none) := by
  refine ⟨?_, ?_, ?_, ?_⟩
  · intro hlen hover
    unfold CPCTPlus.delete
    rw [if_neg hlen, checkedAdd_of_gt _ _ hover]
    rfl
  · intro hle
    by_cases hlen : n.laidx = p.lexemes.length
    · exact ⟨[], by unfold CPCTPlus.delete; rw [if_pos hlen]⟩
    · have hd : CPCTPlus.delete p n =
          some [(n.cf + p.tokenCost (p.nextTidx n.laidx),
            { pstack := n.pstack, laidx := n.laidx + 1,
              repairs := .repair .delete :: n.repairs,
              cf := n.cf + p.tokenCost (p.nextTidx n.laidx) })] := by
        unfold CPCTPlus.delete
        rw [if_neg hlen, checkedAdd_of_le _ _ hle]
        rfl
      exact ⟨_, hd⟩
  · intro fuel top rest hps hsim hcost
    unfold CPCTPlus.insert
    rw [hps]
    apply seqAppend_isSome
    intro o ho
    obtain ⟨t, htmem, hto⟩ := List.mem_map.1 ho
    obtain ⟨xs, hxs⟩ := insertStep_isSome p fuel n t (hsim t htmem) (hcost t htmem)
    exact ⟨xs, by rw [← hto, hxs]⟩
  · intro fuel top rest hps hover
    obtain ⟨t, htmem, ht, ⟨nl, st, hlr, hadv⟩, hgt⟩ := hover
    unfold CPCTPlus.insert
    rw [hps]
    apply seqAppend_eq_none
    rw [← insertStep_overflow p fuel n t nl st ht hlr hadv hgt]
    exact List.mem_map.2 ⟨t, htmem, rfl⟩

/-- Witness for C9: at `nMax` the saturated counter makes `delete` abort,
while at `n0` both `delete` and `insert` succeed. -/
theorem cost_overflow_behaviour_witness :
    (nMax.laidx ≠ egP.lexemes.length ∧
      U16_MAX < nMax.cf + egP.tokenCost (egP.nextTidx nMax.laidx)) ∧
    CPCTPlus.delete egP nMax = none ∧
    (∃ o, CPCTPlus.delete egP n0 = some o) ∧
    (∃ o, CPCTPlus.insert egP 10 n0 = some o) :=
  ⟨⟨by decide, by decide⟩,
   (cost_overflow_behaviour egP nMax).1 (by decide) (by decide),
   (cost_overflow_behaviour egP n0).2.1 (by decide),
   (cost_overflow_behaviour egP n0).2.2.1 10 0 [] (by decide)
     (by decide) (by decide)⟩

/-- C6: the Shift operation runs `lr_cactus` with no synthesized lexeme and
emits a neighbour exactly when the resulting stack differs from the parent
stack; the neighbour carries an appended Shift repair exactly when the
lookahead advanced and an unchanged repair list otherwise (a reduction),
and in both cases its cost equals the parent cost. -/
theorem shift_spec (p : Parser) (fuel : Nat) (n : PathFNode) (nl : Nat)
    (st : List Nat)
    (h : lrCactus p fuel none n.laidx (n.laidx + 1) n.pstack = some (nl, st)) :
    ∃ out, CPCTPlus.shift p fuel n = some out ∧
      (out ≠ [] ↔ st ≠ n.pstack) ∧
      ∀ c m, (c, m) ∈ out →
        c = n.cf ∧ m.cf = n.cf ∧ m.pstack = st ∧ m.laidx = nl ∧
        (n.laidx < nl → m.repairs = .repair .shift :: n.repairs) ∧
        (¬ n.laidx < nl → m.repairs = n.repairs) := by
  unfold CPCTPlus.shift
  rw [h]
  by_cases hst : n.pstack = st
  · refine ⟨[], by simp [hst], by simp [hst], ?_⟩
    intro c m hm
    simp at hm
  · refine ⟨[(n.cf,
      { pstack := st, laidx := nl,
        repairs :=
          if n.laidx < nl then RepairMerge.repair .shift :: n.repairs
          else n.repairs,
        cf := n.cf })], by simp [hst], ?_, ?_⟩
    · simp
      exact fun hc => absurd hc.symm hst
    · intro c m hm
      simp at hm
      obtain ⟨hc, hmm⟩ := hm
      by_cases hadv : n.laidx < nl
      · rw [if_pos hadv] at hmm
        subst hmm
        exact ⟨hc, rfl, rfl, rfl, fun _ => rfl, fun hno => absurd hadv hno⟩
      · rw [if_neg hadv] at hmm
        subst hmm
        exact ⟨hc, rfl, rfl, rfl, fun hyes => absurd hyes hadv, fun _ => rfl⟩

/-- Witness for C6 at `egP` and `n1`, where token 1 reduces and then hits
Error: the stack changes without the lookahead advancing, so a neighbour
with an unchanged repair list is emitted. -/
theorem shift_spec_witness :
    lrCactus egP 10 none n1.laidx (n1.laidx + 1) n1.pstack =
      some (0, [5, 0]) ∧
    ∃ out, CPCTPlus.shift egP 10 n1 = some out ∧
      (out ≠ [] ↔ ([5, 0] : List Nat) ≠ n1.pstack) ∧
      ∀ c m, (c, m) ∈ out →
        c = n1.cf ∧ m.cf = n1.cf ∧ m.pstack = [5, 0] ∧ m.laidx = 0 ∧
        (n1.laidx < 0 → m.repairs = .repair .shift :: n1.repairs) ∧
        (¬ n1.laidx < 0 → m.repairs = n1.repairs) :=
  ⟨by decide, shift_spec egP 10 n1 0 [5, 0] (by decide)⟩

theorem endsDelete_lastRepair (rs : List RepairMerge)
    (h : endsDelete rs = true) :
    lastRepairOf rs = some (some .delete) := by
  match rs, h with
  | .repair .delete :: _, _ => rfl
  | .merge .delete _ :: _, _ => rfl

theorem endsDelete_head (rs : List RepairMerge) (h : endsDelete rs = true) :
    ∀ e, rs.head? = some e → isInsertEntry e = false := by
  match rs, h with
  | .repair .delete :: _, _ =>
    intro e he
    simp at he
    rw [← he]
    rfl
  | .merge .delete _ :: _, _ =>
    intro e he
    simp at he
    rw [← he]
    rfl

theorem delete_mem_repairs (p : Parser) (n : PathFNode)
    (o2 : List (Nat × PathFNode)) (h : CPCTPlus.delete p n = some o2) :
    ∀ c m, (c, m) ∈ o2 → m.repairs = .repair .delete :: n.repairs := by
  intro c m hm
  unfold CPCTPlus.delete at h
  split at h
  · injection h with h1
    rw [← h1] at hm
    simp at hm
  · match hadd : checkedAdd n.cf (p.tokenCost (p.nextTidx n.laidx)) with
    | none => rw [hadd] at h; simp at h
    | some cf2 =>
      rw [hadd] at h
      simp at h
      subst h
      simp at hm
      rw [hm.2]

theorem shift_mem_repairs (p : Parser) (fuel : Nat) (n : PathFNode)
    (o3 : List (Nat × PathFNode)) (h : CPCTPlus.shift p fuel n = some o3) :
    ∀ c m, (c, m) ∈ o3 →
      m.repairs = .repair .shift :: n.repairs ∨ m.repairs = n.repairs := by
  intro c m hm
  unfold CPCTPlus.shift at h
  match hlr : lrCactus p fuel none n.laidx (n.laidx + 1) n.pstack with
  | none => rw [hlr] at h; simp at h
  | some (nl, st) =>
    rw [hlr] at h
    simp at h
    by_cases hst : n.pstack = st
    · rw [if_pos hst] at h
      subst h
      simp at hm
    · rw [if_neg hst] at h
      subst h
      simp at hm
      obtain ⟨_, hm⟩ := hm
      subst hm
      by_cases hadv : n.laidx < nl
      · rw [if_pos hadv]
        exact Or.inl rfl
      · rw [if_neg hadv]
        exact Or.inr rfl

/-- C2 (amended): for every token in the state actions of the top stack
state except EOF, `insert` synthesizes a zero-length lexeme at the current
offset and simulates one `lr_cactus` step with it; a neighbour with the
Insert repair appended and the token cost added is emitted exactly when the
simulated lookahead advances past the synthesized lexeme (the token is
shifted) — not whenever the stack changes, since a reduction chain ending
in Error changes the stack without advancing.  No Insert neighbour is
generated by the neighbour closure when the last repair of the node is a
Delete. -/
theorem insert_neighbours_spec (p : Parser) (fuel : Nat) (n : PathFNode)
    (top : Nat) (rest : List Nat) (hps : n.pstack = top :: rest)
    (hsim : ∀ t ∈ p.stable.stateActions top,
      (lrCactus p fuel (some (CPCTPlus.insLexeme p n t)) n.laidx
        (n.laidx + 1) n.pstack).isSome)
    (hcost : ∀ t ∈ p.stable.stateActions top,
      n.cf + p.tokenCost t ≤ U16_MAX) :
    (∃ out, CPCTPlus.insert p fuel n = some out ∧
      ∀ t ∈ p.stable.stateActions top, t ≠ p.eofTokenIdx →
        ∀ nl st, lrCactus p fuel (some (CPCTPlus.insLexeme p n t)) n.laidx
            (n.laidx + 1) n.pstack = some (nl, st) →
          ((n.cf + p.tokenCost t,
            { pstack := st, laidx := n.laidx,
              repairs := .repair (.insertTerm t) :: n.repairs,
              cf := n.cf + p.tokenCost t }) ∈ out ↔ n.laidx < nl)) ∧
    (endsDelete n.repairs = true →
      ∀ exploreAll res,
        CPCTPlus.neighbours p fuel exploreAll false n = some res →
        ∀ c m, (c, m) ∈ res.2 → ∀ e, m.repairs.head? = some e →
          isInsertEntry e = false) := by
  constructor
  · have hout : ∃ out, CPCTPlus.insert p fuel n = some out := by
      unfold CPCTPlus.insert
      rw [hps]
      apply seqAppend_isSome
      intro o ho
      obtain ⟨t, htmem, hto⟩ := List.mem_map.1 ho
      obtain ⟨xs, hxs⟩ :=
        insertStep_isSome p fuel n t (hsim t htmem) (hcost t htmem)
      exact ⟨xs, by rw [← hto, hxs]⟩
    obtain ⟨out, hout⟩ := hout
    refine ⟨out, hout, ?_⟩
    intro t htmem htne nl st hlr
    constructor
    · intro hmem
      have hsq : CPCTPlus.seqAppend
          ((p.stable.stateActions top).map (CPCTPlus.insertStep p fuel n)) =
          some out := by
        rw [← hout]
        unfold CPCTPlus.insert
        rw [hps]
      obtain ⟨o, ho, xs, hoxs, hmxs⟩ := ((mem_seqAppend hsq) _).1 hmem
      obtain ⟨t2, ht2mem, ht2o⟩ := List.mem_map.1 ho
      rw [hoxs] at ht2o
      obtain ⟨_, _, _, _, _, hreps, nl2, st2, hlr2, hadv2, _⟩ :=
        insertStep_mem p fuel n t2 xs ht2o _ _ hmxs
      have ht2t : t = t2 := by
        have h5 : RepairMerge.repair (Repair.insertTerm t) :: n.repairs =
            RepairMerge.repair (Repair.insertTerm t2) :: n.repairs := hreps
        simpa using h5
      subst ht2t
      rw [hlr] at hlr2
      injection hlr2 with hlr3
      injection hlr3 with hnl _
      rw [hnl]
      exact hadv2
    · intro hadv
      have hstep := insertStep_emits p fuel n t nl st htne hlr hadv
        (hcost t htmem)
      have hsq : CPCTPlus.seqAppend
          ((p.stable.stateActions top).map (CPCTPlus.insertStep p fuel n)) =
          some out := by
        rw [← hout]
        unfold CPCTPlus.insert
        rw [hps]
      refine ((mem_seqAppend hsq) _).2 ?_
      exact ⟨CPCTPlus.insertStep p fuel n t, List.mem_map.2 ⟨t, htmem, rfl⟩,
        _, hstep, by simp⟩
  · intro hdel exploreAll res hneigh
    intro c m hm e hhead
    unfold CPCTPlus.neighbours at hneigh
    rw [endsDelete_lastRepair n.repairs hdel] at hneigh
    simp at hneigh
    cases exploreAll with
    | true =>
      simp at hneigh
      match hd : CPCTPlus.delete p n, hs : CPCTPlus.shift p fuel n with
      | none, _ =>
        rw [hd] at hneigh
        simp at hneigh
      | some d, none =>
        rw [hd, hs] at hneigh
        simp at hneigh
      | some d, some s =>
        rw [hd, hs] at hneigh
        simp at hneigh
        rw [← hneigh] at hm
        simp at hm
        rcases hm with hmd | hms
        · have hdr := delete_mem_repairs p n d hd c m hmd
          rw [hdr] at hhead
          simp at hhead
          rw [← hhead]
          rfl
        · rcases shift_mem_repairs p fuel n s hs c m hms with hr | hr
          · rw [hr] at hhead
            simp at hhead
            rw [← hhead]
            rfl
          · rw [hr] at hhead
            exact endsDelete_head n.repairs hdel e hhead
    | false =>
      simp at hneigh
      match hs : CPCTPlus.shift p fuel n with
      | none =>
        rw [hs] at hneigh
        simp at hneigh
      | some s =>
        rw [hs] at hneigh
        simp at hneigh
        rw [← hneigh] at hm
        simp at hm
        rcases shift_mem_repairs p fuel n s hs c m hm with hr | hr
        · rw [hr] at hhead
          simp at hhead
          rw [← hhead]
          rfl
        · rw [hr] at hhead
          exact endsDelete_head n.repairs hdel e hhead

/-- Witness for the amended C2 at the concrete parser `egP` and node `n0`:
token 0 is shifted by the simulation, so its Insert neighbour is emitted. -/
theorem insert_neighbours_spec_witness :
    n0.pstack = 0 :: [] ∧
    ∃ out, CPCTPlus.insert egP 10 n0 = some out ∧
      (n0.cf + egP.tokenCost 0,
        { pstack := [1, 0], laidx := n0.laidx,
          repairs := .repair (.insertTerm 0) :: n0.repairs,
          cf := n0.cf + egP.tokenCost 0 }) ∈ out := by
  refine ⟨rfl, ?_⟩
  obtain ⟨out, hout, hiff⟩ :=
    (insert_neighbours_spec egP 10 n0 0 [] rfl (by decide) (by decide)).1
  exact ⟨out, hout,
    (hiff 0 (by decide) (by decide) 1 [1, 0] (by decide)).2 (by decide)⟩

/-- C2, refuted as stated: at `egP` and node `n1` the candidate token 1 is
in the state actions of the top state and its simulated step changes the
stack (a reduction into a state whose action on token 1 is Error, with the
lookahead not advancing), yet `insert` emits no neighbour.  So a neighbour
is not emitted whenever the simulated stack changes. -/
theorem insert_counterexample :
    CPCTPlus.insert egP 10 n1 = some [] ∧
    1 ∈ egP.stable.stateActions 1 ∧ 1 ≠ egP.eofTokenIdx ∧
    n1.pstack = 1 :: [0] ∧ endsDelete n1.repairs = false ∧
    lrCactus egP 10 (some (CPCTPlus.insLexeme egP n1 1)) n1.laidx
      (n1.laidx + 1) n1.pstack = some (n1.laidx, [5, 0]) ∧
    ([5, 0] : List Nat) ≠ n1.pstack :=
  ⟨by decide, by decide, by decide, by decide, by decide, by decide, by decide⟩

/-! ## Lemmas on FOLLOW tables and the elementary update operations -/

theorem getF_set_self (t : FollowTable) (r : Nat) (s : Finset Nat)
    (h : r < t.length) : getF (t.set r s) r = s := by
  unfold getF
  rw [List.getElem?_set_eq_of_lt s h]
  rfl

theorem getF_set_ne (t : FollowTable) (r : Nat) (s : Finset Nat) (i : Nat)
    (h : r ≠ i) : getF (t.set r s) i = getF t i := by
  unfold getF
  rw [List.getElem?_set_ne h]

theorem getF_cons_succ (x : Finset Nat) (xs : FollowTable) (i : Nat) :
    getF (x :: xs) (i + 1) = getF xs i := by
  unfold getF
  rw [List.getElem?_cons_succ]

theorem getF_cons_zero (x : Finset Nat) (xs : FollowTable) :
    getF (x :: xs) 0 = x := by
  unfold getF
  rw [List.getElem?_cons_zero]
  rfl

theorem getF_mem (t : FollowTable) (i : Nat) (h : i < t.length) :
    getF t i ∈ t := by
  unfold getF
  rw [List.getElem?_eq_getElem h]
  exact List.getElem_mem h

theorem getF_of_lt (t : FollowTable) (i : Nat) (h : i < t.length) :
    t[i]? = some (getF t i) := by
  unfold getF
  rw [List.getElem?_eq_getElem h]
  rfl

theorem getF_bounded (g : YaccGrammar) (t : FollowTable)
    (hb : boundedF g t) (r : Nat) :
    getF t r ⊆ Finset.range g.tokensLen := by
  by_cases hr : r < t.length
  · exact hb _ (getF_mem t r hr)
  · unfold getF
    rw [List.getElem?_eq_none (by omega)]
    simp

theorem tleF_refl (t : FollowTable) : tleF t t :=
  ⟨rfl, fun _ => Finset.Subset.refl _⟩

theorem tleF_trans {a b c : FollowTable} (h1 : tleF a b) (h2 : tleF b c) :
    tleF a c :=
  ⟨h2.1.trans h1.1, fun i => (h1.2 i).trans (h2.2 i)⟩

theorem tleF_antisymm {a b : FollowTable} (h1 : tleF a b) (h2 : tleF b a) :
    a = b := by
  apply List.ext_getElem?
  intro i
  by_cases hi : i < a.length
  · have hib : i < b.length := by rw [h1.1]; exact hi
    rw [getF_of_lt a i hi, getF_of_lt b i hib,
      Finset.Subset.antisymm (h1.2 i) (h2.2 i)]
  · have hib : ¬ i < b.length := by rw [h1.1]; exact hi
    rw [List.getElem?_eq_none (by omega), List.getElem?_eq_none (by omega)]

theorem measF_mono : ∀ (t t2 : FollowTable), tleF t t2 → measF t ≤ measF t2 := by
  intro t
  induction t with
  | nil => intro t2 _; exact Nat.zero_le _
  | cons x xs ih =>
    intro t2 h
    cases t2 with
    | nil => exact absurd h.1 (by simp)
    | cons y ys =>
      have hx : x ⊆ y := by
        have := h.2 0
        rwa [getF_cons_zero, getF_cons_zero] at this
      have hys : tleF xs ys := by
        refine ⟨by have := h.1; simpa using this, fun i => ?_⟩
        have := h.2 (i + 1)
        rwa [getF_cons_succ, getF_cons_succ] at this
      have h1 := Finset.card_le_card hx
      have h2 := ih ys hys
      simp only [measF, List.map_cons, List.sum_cons] at *
      omega

theorem measF_set : ∀ (t : FollowTable) (r : Nat) (s : Finset Nat),
    r < t.length →
    measF (t.set r s) + (getF t r).card = measF t + s.card := by
  intro t
  induction t with
  | nil => intro r s h; simp at h
  | cons x xs ih =>
    intro r s h
    cases r with
    | zero =>
      simp only [List.set_cons_zero, measF, List.map_cons, List.sum_cons,
        getF_cons_zero]
      omega
    | succ r2 =>
      have h2 : r2 < xs.length := by simp at h; omega
      have := ih r2 s h2
      simp only [List.set_cons_succ, measF, List.map_cons, List.sum_cons,
        getF_cons_succ] at *
      omega

theorem measF_le_bound : ∀ (t : FollowTable) (k : Nat),
    (∀ s ∈ t, s ⊆ Finset.range k) → measF t ≤ t.length * k := by
  intro t
  induction t with
  | nil => intro k _; simp [measF]
  | cons x xs ih =>
    intro k h
    have hx : x.card ≤ k := by
      have := Finset.card_le_card (h x (List.mem_cons_self x xs))
      simpa using this
    have hxs := ih k (fun s hs => h s (List.mem_cons_of_mem _ hs))
    simp only [measF, List.map_cons, List.sum_cons, List.length_cons] at *
    calc x.card + (xs.map Finset.card).sum ≤ k + xs.length * k :=
        Nat.add_le_add hx hxs
      _ = (xs.length + 1) * k := by ring

theorem vobSet_acc (t : FollowTable) (r tok : Nat)
    (h : (vobSet t r tok).2 = false) :
    (vobSet t r tok).1 = t ∧ tok ∈ getF t r := by
  by_cases hmem : tok ∈ getF t r
  · unfold vobSet
    rw [if_pos hmem]
    exact ⟨rfl, hmem⟩
  · unfold vobSet at h
    rw [if_neg hmem] at h
    simp at h

theorem vobSet_tle (t : FollowTable) (r tok : Nat) :
    tleF t (vobSet t r tok).1 := by
  by_cases hmem : tok ∈ getF t r
  · unfold vobSet
    rw [if_pos hmem]
    exact tleF_refl t
  · unfold vobSet
    rw [if_neg hmem]
    show tleF t (t.set r (insert tok (getF t r)))
    refine ⟨by simp, fun i => ?_⟩
    by_cases hi : r = i
    · subst hi
      by_cases hlt : r < t.length
      · rw [getF_set_self t r _ hlt]
        exact Finset.subset_insert _ _
      · rw [List.set_eq_of_length_le (by omega)]
    · rw [getF_set_ne t r _ i hi]

theorem vobSet_strict (t : FollowTable) (r tok : Nat)
    (hr : r < t.length) (h : (vobSet t r tok).2 = true) :
    measF t < measF (vobSet t r tok).1 := by
  by_cases hmem : tok ∈ getF t r
  · unfold vobSet at h
    rw [if_pos hmem] at h
    simp at h
  · unfold vobSet
    rw [if_neg hmem]
    show measF t < measF (t.set r (insert tok (getF t r)))
    have hm := measF_set t r (insert tok (getF t r)) hr
    have hc : (insert tok (getF t r)).card = (getF t r).card + 1 :=
      Finset.card_insert_of_not_mem hmem
    omega

theorem vobSet_bounded (g : YaccGrammar) (t : FollowTable) (r tok : Nat)
    (hb : boundedF g t) (htok : tok < g.tokensLen) :
    boundedF g (vobSet t r tok).1 := by
  by_cases hmem : tok ∈ getF t r
  · unfold vobSet
    rw [if_pos hmem]
    exact hb
  · unfold vobSet
    rw [if_neg hmem]
    show boundedF g (t.set r (insert tok (getF t r)))
    intro s hs
    rcases List.mem_or_eq_of_mem_set hs with hs2 | hs2
    · exact hb s hs2
    · rw [hs2]
      intro x hx
      rcases Finset.mem_insert.1 hx with hx2 | hx2
      · rw [hx2]
        exact Finset.mem_range.2 htok
      · exact getF_bounded g t hb r hx2

theorem vobOr_acc (t : FollowTable) (r : Nat) (src : Finset Nat)
    (h : (vobOr t r src).2 = false) :
    (vobOr t r src).1 = t ∧ src ⊆ getF t r := by
  by_cases hsub : src ⊆ getF t r
  · unfold vobOr
    rw [if_pos hsub]
    exact ⟨rfl, hsub⟩
  · unfold vobOr at h
    rw [if_neg hsub] at h
    simp at h

theorem vobOr_tle (t : FollowTable) (r : Nat) (src : Finset Nat) :
    tleF t (vobOr t r src).1 := by
  by_cases hsub : src ⊆ getF t r
  · unfold vobOr
    rw [if_pos hsub]
    exact tleF_refl t
  · unfold vobOr
    rw [if_neg hsub]
    show tleF t (t.set r (getF t r ∪ src))
    refine ⟨by simp, fun i => ?_⟩
    by_cases hi : r = i
    · subst hi
      by_cases hlt : r < t.length
      · rw [getF_set_self t r _ hlt]
        exact Finset.subset_union_left
      · rw [List.set_eq_of_length_le (by omega)]
    · rw [getF_set_ne t r _ i hi]

theorem vobOr_strict (t : FollowTable) (r : Nat) (src : Finset Nat)
    (hr : r < t.length) (h : (vobOr t r src).2 = true) :
    measF t < measF (vobOr t r src).1 := by
  by_cases hsub : src ⊆ getF t r
  · unfold vobOr at h
    rw [if_pos hsub] at h
    simp at h
  · unfold vobOr
    rw [if_neg hsub]
    show measF t < measF (t.set r (getF t r ∪ src))
    have hm := measF_set t r (getF t r ∪ src) hr
    have hc : (getF t r).card < (getF t r ∪ src).card := by
      apply Finset.card_lt_card
      constructor
      · exact Finset.subset_union_left
      · intro hcontra
        exact hsub (fun x hx => hcontra (Finset.mem_union_right _ hx))
    omega

theorem vobOr_bounded (g : YaccGrammar) (t : FollowTable) (r : Nat)
    (src : Finset Nat) (hb : boundedF g t)
    (hsrc : src ⊆ Finset.range g.tokensLen) :
    boundedF g (vobOr t r src).1 := by
  by_cases hsub : src ⊆ getF t r
  · unfold vobOr
    rw [if_pos hsub]
    exact hb
  · unfold vobOr
    rw [if_neg hsub]
    show boundedF g (t.set r (getF t r ∪ src))
    intro s hs
    rcases List.mem_or_eq_of_mem_set hs with hs2 | hs2
    · exact hb s hs2
    · rw [hs2]
      intro x hx
      rcases Finset.mem_union.1 hx with hx2 | hx2
      · exact getF_bounded g t hb r hx2
      · exact hsrc hx2

theorem epsilonUnion_acc (g : YaccGrammar) (t : FollowTable) (ridx sRidx : Nat)
    (h : (epsilonUnion g t ridx sRidx).2 = false) :
    (epsilonUnion g t ridx sRidx).1 = t ∧
      getF t ridx ∩ Finset.range g.tokensLen ⊆ getF t sRidx :=
  vobOr_acc t sRidx _ h

theorem epsilonUnion_tle (g : YaccGrammar) (t : FollowTable) (ridx sRidx : Nat) :
    tleF t (epsilonUnion g t ridx sRidx).1 :=
  vobOr_tle t sRidx _

theorem epsilonUnion_strict (g : YaccGrammar) (t : FollowTable)
    (ridx sRidx : Nat) (hr : sRidx < t.length)
    (h : (epsilonUnion g t ridx sRidx).2 = true) :
    measF t < measF (epsilonUnion g t ridx sRidx).1 :=
  vobOr_strict t sRidx _ hr h

theorem epsilonUnion_bounded (g : YaccGrammar) (t : FollowTable)
    (ridx sRidx : Nat) (hb : boundedF g t) :
    boundedF g (epsilonUnion g t ridx sRidx).1 :=
  vobOr_bounded g t sRidx _ hb Finset.inter_subset_right

theorem epsStep_acc (g : YaccGrammar) (eps : Bool) (t : FollowTable)
    (ridx q : Nat) (h : (epsStep g eps t ridx q).2 = false) :
    (epsStep g eps t ridx q).1 = t ∧
      (eps = true → getF t ridx ∩ Finset.range g.tokensLen ⊆ getF t q) := by
  cases eps with
  | false => exact ⟨rfl, by simp⟩
  | true =>
    unfold epsStep at *
    rw [if_pos rfl] at *
    obtain ⟨h1, h2⟩ := epsilonUnion_acc g t ridx q h
    exact ⟨h1, fun _ => h2⟩

theorem epsStep_tle (g : YaccGrammar) (eps : Bool) (t : FollowTable)
    (ridx q : Nat) : tleF t (epsStep g eps t ridx q).1 := by
  cases eps with
  | false => exact tleF_refl t
  | true =>
    unfold epsStep
    rw [if_pos rfl]
    exact epsilonUnion_tle g t ridx q

theorem epsStep_strict (g : YaccGrammar) (eps : Bool) (t : FollowTable)
    (ridx q : Nat) (hq : q < t.length)
    (h : (epsStep g eps t ridx q).2 = true) :
    measF t < measF (epsStep g eps t ridx q).1 := by
  cases eps with
  | false => simp [epsStep] at h
  | true =>
    unfold epsStep at *
    rw [if_pos rfl] at *
    exact epsilonUnion_strict g t ridx q hq h

theorem epsStep_bounded (g : YaccGrammar) (eps : Bool) (t : FollowTable)
    (ridx q : Nat) (hb : boundedF g t) :
    boundedF g (epsStep g eps t ridx q).1 := by
  cases eps with
  | false => exact hb
  | true =>
    unfold epsStep
    rw [if_pos rfl]
    exact epsilonUnion_bounded g t ridx q hb

theorem nextStep_acc (fi : YaccFirsts) (q : Nat) (nxt : Option Symbol')
    (t : FollowTable) (h : (nextStep fi q nxt t).2 = false) :
    (nextStep fi q nxt t).1 = t ∧
      (∀ nt, nxt = some (.token nt) → nt ∈ getF t q) ∧
      (∀ nr, nxt = some (.rule nr) → fi.firstsOf nr ⊆ getF t q) := by
  match nxt with
  | none => exact ⟨rfl, by simp, by simp⟩
  | some (.token nt) =>
    obtain ⟨h1, h2⟩ := vobSet_acc t q nt h
    refine ⟨h1, ?_, by simp⟩
    intro nt2 hnt2
    injection hnt2 with hnt3
    injection hnt3 with hnt4
    rw [← hnt4]
    exact h2
  | some (.rule nr) =>
    obtain ⟨h1, h2⟩ := vobOr_acc t q _ h
    refine ⟨h1, by simp, ?_⟩
    intro nr2 hnr2
    injection hnr2 with hnr3
    injection hnr3 with hnr4
    rw [← hnr4]
    exact h2

theorem nextStep_tle (fi : YaccFirsts) (q : Nat) (nxt : Option Symbol')
    (t : FollowTable) : tleF t (nextStep fi q nxt t).1 := by
  match nxt with
  | none => exact tleF_refl t
  | some (.token nt) => exact vobSet_tle t q nt
  | some (.rule nr) => exact vobOr_tle t q _

theorem nextStep_strict (fi : YaccFirsts) (q : Nat) (nxt : Option Symbol')
    (t : FollowTable) (hq : q < t.length) (h : (nextStep fi q nxt t).2 = true) :
    measF t < measF (nextStep fi q nxt t).1 := by
  match nxt with
  | none => simp [nextStep] at h
  | some (.token nt) => exact vobSet_strict t q nt hq h
  | some (.rule nr) => exact vobOr_strict t q _ hq h

theorem nextStep_bounded (g : YaccGrammar) (fi : YaccFirsts) (q : Nat)
    (nxt : Option Symbol') (t : FollowTable) (hb : boundedF g t)
    (htok : ∀ nt, nxt = some (.token nt) → nt < g.tokensLen)
    (hfi : ∀ r, fi.firstsOf r ⊆ Finset.range g.tokensLen) :
    boundedF g (nextStep fi q nxt t).1 := by
  match nxt with
  | none => exact hb
  | some (.token nt) => exact vobSet_bounded g t q nt hb (htok nt rfl)
  | some (.rule nr) => exact vobOr_bounded g t q _ hb (hfi nr)

theorem ruleUpdate_acc (g : YaccGrammar) (fi : YaccFirsts) (ridx q : Nat)
    (nxt : Option Symbol') (t : FollowTable) (eps : Bool)
    (h : (ruleUpdate g fi ridx q nxt t eps).2 = false) :
    (ruleUpdate g fi ridx q nxt t eps).1 = t ∧
      (eps = true → getF t ridx ∩ Finset.range g.tokensLen ⊆ getF t q) ∧
      (∀ nt, nxt = some (.token nt) → nt ∈ getF t q) ∧
      (∀ nr, nxt = some (.rule nr) → fi.firstsOf nr ⊆ getF t q) := by
  unfold ruleUpdate at h
  simp at h
  obtain ⟨h1, h2⟩ := h
  obtain ⟨he1, he2⟩ := epsStep_acc g eps t ridx q h1
  rw [he1] at h2
  obtain ⟨hn1, hn2, hn3⟩ := nextStep_acc fi q nxt t h2
  refine ⟨?_, he2, hn2, hn3⟩
  unfold ruleUpdate
  rw [he1, hn1]

theorem ruleUpdate_tle (g : YaccGrammar) (fi : YaccFirsts) (ridx q : Nat)
    (nxt : Option Symbol') (t : FollowTable) (eps : Bool) :
    tleF t (ruleUpdate g fi ridx q nxt t eps).1 :=
  tleF_trans (epsStep_tle g eps t ridx q)
    (nextStep_tle fi q nxt (epsStep g eps t ridx q).1)

theorem ruleUpdate_strict (g : YaccGrammar) (fi : YaccFirsts) (ridx q : Nat)
    (nxt : Option Symbol') (t : FollowTable) (eps : Bool)
    (hq : q < t.length) (h : (ruleUpdate g fi ridx q nxt t eps).2 = true) :
    measF t < measF (ruleUpdate g fi ridx q nxt t eps).1 := by
  unfold ruleUpdate at h ⊢
  show measF t < measF (nextStep fi q nxt (epsStep g eps t ridx q).1).1
  simp at h
  rcases h with h | h
  · have h1 := epsStep_strict g eps t ridx q hq h
    have h2 := measF_mono _ _ (nextStep_tle fi q nxt (epsStep g eps t ridx q).1)
    omega
  · by_cases he : (epsStep g eps t ridx q).2 = true
    · have h1 := epsStep_strict g eps t ridx q hq he
      have h2 := measF_mono _ _ (nextStep_tle fi q nxt (epsStep g eps t ridx q).1)
      omega
    · obtain ⟨he1, _⟩ := epsStep_acc g eps t ridx q (by
        cases hc : (epsStep g eps t ridx q).2
        · rfl
        · exact absurd hc he)
      rw [he1] at h ⊢
      exact nextStep_strict fi q nxt t hq h

theorem ruleUpdate_bounded (g : YaccGrammar) (fi : YaccFirsts) (ridx q : Nat)
    (nxt : Option Symbol') (t : FollowTable) (eps : Bool)
    (hb : boundedF g t)
    (htok : ∀ nt, nxt = some (.token nt) → nt < g.tokensLen)
    (hfi : ∀ r, fi.firstsOf r ⊆ Finset.range g.tokensLen) :
    boundedF g (ruleUpdate g fi ridx q nxt t eps).1 :=
  nextStep_bounded g fi q nxt _ (epsStep_bounded g eps t ridx q hb) htok hfi

theorem followsScan_eps (g : YaccGrammar) (fi : YaccFirsts) (ridx : Nat) :
    ∀ (syms : List Symbol') (t : FollowTable),
      (followsScan g fi ridx syms t).2.2 = allNullable fi syms := by
  intro syms
  induction syms with
  | nil => intro t; rfl
  | cons s rest ih =>
    intro t
    cases s with
    | token tk => simp [followsScan, allNullable]
    | rule q =>
      simp only [followsScan, allNullable, ih t]
      rw [Bool.and_comm]

theorem followsScan_tle (g : YaccGrammar) (fi : YaccFirsts) (ridx : Nat) :
    ∀ (syms : List Symbol') (t : FollowTable),
      tleF t (followsScan g fi ridx syms t).1 := by
  intro syms
  induction syms with
  | nil => intro t; exact tleF_refl t
  | cons s rest ih =>
    intro t
    cases s with
    | token tk => exact ih t
    | rule q => exact tleF_trans (ih t) (ruleUpdate_tle g fi ridx q _ _ _)

theorem followsScan_acc (g : YaccGrammar) (fi : YaccFirsts) (ridx : Nat) :
    ∀ (syms : List Symbol') (t : FollowTable),
      (followsScan g fi ridx syms t).2.1 = false →
      (followsScan g fi ridx syms t).1 = t := by
  intro syms
  induction syms with
  | nil => intro t _; rfl
  | cons s rest ih =>
    intro t h
    cases s with
    | token tk => exact ih t h
    | rule q =>
      simp only [followsScan] at h ⊢
      simp at h
      obtain ⟨h1, h2⟩ := h
      have hrec := ih t h1
      obtain ⟨hu, _, _, _⟩ := ruleUpdate_acc g fi ridx q _ _ _ h2
      rw [hu, hrec]

theorem followsScan_bounded (g : YaccGrammar) (fi : YaccFirsts) (ridx : Nat)
    (hfi : ∀ r, fi.firstsOf r ⊆ Finset.range g.tokensLen) :
    ∀ (syms : List Symbol') (t : FollowTable), boundedF g t →
      (∀ tk, Symbol'.token tk ∈ syms → tk < g.tokensLen) →
      boundedF g (followsScan g fi ridx syms t).1 := by
  intro syms
  induction syms with
  | nil => intro t hb _; exact hb
  | cons s rest ih =>
    intro t hb hsyms
    cases s with
    | token tk =>
      exact ih t hb (fun tk2 htk2 => hsyms tk2 (List.mem_cons_of_mem _ htk2))
    | rule q =>
      apply ruleUpdate_bounded
      · exact ih t hb (fun tk2 htk2 => hsyms tk2 (List.mem_cons_of_mem _ htk2))
      · intro nt hnt
        refine hsyms nt (List.mem_cons_of_mem _ ?_)
        exact List.mem_of_mem_head? (by rw [hnt]; rfl)
      · exact hfi

theorem followsScan_strict (g : YaccGrammar) (fi : YaccFirsts) (ridx : Nat) :
    ∀ (syms : List Symbol') (t : FollowTable),
      (∀ q, Symbol'.rule q ∈ syms → q < t.length) →
      (followsScan g fi ridx syms t).2.1 = true →
      measF t < measF (followsScan g fi ridx syms t).1 := by
  intro syms
  induction syms with
  | nil => intro t _ h; simp [followsScan] at h
  | cons s rest ih =>
    intro t hq h
    cases s with
    | token tk =>
      exact ih t (fun q2 hq2 => hq q2 (List.mem_cons_of_mem _ hq2)) h
    | rule q =>
      simp only [followsScan] at h ⊢
      simp at h
      rcases h with h1 | h2
      · have hs := ih t (fun q2 hq2 => hq q2 (List.mem_cons_of_mem _ hq2)) h1
        have hm := measF_mono _ _ (ruleUpdate_tle g fi ridx q rest.head?
          (followsScan g fi ridx rest t).1 (followsScan g fi ridx rest t).2.2)
        omega
      · by_cases h1 : (followsScan g fi ridx rest t).2.1 = true
        · have hs := ih t (fun q2 hq2 => hq q2 (List.mem_cons_of_mem _ hq2)) h1
          have hm := measF_mono _ _ (ruleUpdate_tle g fi ridx q rest.head?
            (followsScan g fi ridx rest t).1 (followsScan g fi ridx rest t).2.2)
          omega
        · have hacc := followsScan_acc g fi ridx rest t (by
            cases hc : (followsScan g fi ridx rest t).2.1
            · rfl
            · exact absurd hc h1)
          rw [hacc] at h2 ⊢
          exact ruleUpdate_strict g fi ridx q rest.head? t _
            (hq q (List.mem_cons_self _ _)) h2

theorem wfg_spec (g : YaccGrammar) (h : wfg g = true) :
    g.startRuleIdx < g.rulesLen ∧ g.eofTokenIdx < g.tokensLen ∧
    ∀ p ∈ g.prods, p.1 < g.rulesLen ∧
      (∀ tk, Symbol'.token tk ∈ p.2 → tk < g.tokensLen) ∧
      (∀ q, Symbol'.rule q ∈ p.2 → q < g.rulesLen) := by
  unfold wfg at h
  simp at h
  obtain ⟨⟨h1, h2⟩, h3⟩ := h
  refine ⟨h1, h2, ?_⟩
  intro p hp
  obtain ⟨hp1, hp2⟩ := h3 p.1 p.2 hp
  refine ⟨hp1, ?_, ?_⟩
  · intro tk htk
    have := hp2 _ htk
    simpa [symOk] using this
  · intro q hq
    have := hp2 _ hq
    simpa [symOk] using this

theorem wfFirsts_spec (g : YaccGrammar) (fi : YaccFirsts)
    (h : wfFirsts g fi = true) :
    ∀ r, fi.firstsOf r ⊆ Finset.range g.tokensLen := by
  intro r
  unfold YaccFirsts.firstsOf
  match hr : fi.firsts[r]? with
  | none => simp
  | some s =>
    have hmem : s ∈ fi.firsts := by
      have hlt : r < fi.firsts.length := by
        by_contra hc
        rw [List.getElem?_eq_none (by omega)] at hr
        cases hr
      rw [List.getElem?_eq_getElem hlt] at hr
      injection hr with hr2
      rw [← hr2]
      exact List.getElem_mem hlt
    unfold wfFirsts at h
    rw [List.all_eq_true] at h
    have := h s hmem
    simpa using this

theorem foldProds_tle (g : YaccGrammar) (fi : YaccFirsts) :
    ∀ (ps : List (Nat × List Symbol')) (t : FollowTable) (b : Bool),
      tleF t (ps.foldl (followsProd g fi) (t, b)).1 := by
  intro ps
  induction ps with
  | nil => intro t b; exact tleF_refl t
  | cons p ps ih =>
    intro t b
    rw [List.foldl_cons]
    exact tleF_trans (followsScan_tle g fi p.1 p.2 t) (ih _ _)

theorem foldProds_acc (g : YaccGrammar) (fi : YaccFirsts) :
    ∀ (ps : List (Nat × List Symbol')) (t : FollowTable) (b : Bool),
      (ps.foldl (followsProd g fi) (t, b)).2 = false →
      (ps.foldl (followsProd g fi) (t, b)).1 = t ∧ b = false := by
  intro ps
  induction ps with
  | nil => intro t b h; exact ⟨rfl, h⟩
  | cons p ps ih =>
    intro t b h
    rw [List.foldl_cons] at h ⊢
    have hinit : followsProd g fi (t, b) p =
        ((followsScan g fi p.1 p.2 t).1,
          b || (followsScan g fi p.1 p.2 t).2.1) := rfl
    rw [hinit] at h ⊢
    obtain ⟨h1, h2⟩ := ih _ _ h
    have h3 : b = false ∧ (followsScan g fi p.1 p.2 t).2.1 = false := by
      simpa using h2
    have h4 := followsScan_acc g fi p.1 p.2 t h3.2
    refine ⟨?_, h3.1⟩
    rw [h1, h4]

theorem foldProds_bounded (g : YaccGrammar) (fi : YaccFirsts)
    (hfi : ∀ r, fi.firstsOf r ⊆ Finset.range g.tokensLen) :
    ∀ (ps : List (Nat × List Symbol')) (t : FollowTable) (b : Bool),
      boundedF g t →
      (∀ p ∈ ps, ∀ tk, Symbol'.token tk ∈ p.2 → tk < g.tokensLen) →
      boundedF g (ps.foldl (followsProd g fi) (t, b)).1 := by
  intro ps
  induction ps with
  | nil => intro t b hb _; exact hb
  | cons p ps ih =>
    intro t b hb hps
    rw [List.foldl_cons]
    exact ih _ _
      (followsScan_bounded g fi p.1 hfi p.2 t hb
        (hps p (List.mem_cons_self _ _)))
      (fun p2 hp2 => hps p2 (List.mem_cons_of_mem _ hp2))

theorem foldProds_strict (g : YaccGrammar) (fi : YaccFirsts) :
    ∀ (ps : List (Nat × List Symbol')) (t : FollowTable),
      (∀ p ∈ ps, ∀ q, Symbol'.rule q ∈ p.2 → q < t.length) →
      (ps.foldl (followsProd g fi) (t, false)).2 = true →
      measF t < measF (ps.foldl (followsProd g fi) (t, false)).1 := by
  intro ps
  induction ps with
  | nil => intro t _ h; simp at h
  | cons p ps ih =>
    intro t hq h
    by_cases hc : (followsScan g fi p.1 p.2 t).2.1 = true
    · have hs := followsScan_strict g fi p.1 p.2 t
        (hq p (List.mem_cons_self _ _)) hc
      rw [List.foldl_cons]
      have hinit : followsProd g fi (t, false) p =
          ((followsScan g fi p.1 p.2 t).1,
            false || (followsScan g fi p.1 p.2 t).2.1) := rfl
      rw [hinit]
      have hm := measF_mono _ _ (foldProds_tle g fi ps
        (followsScan g fi p.1 p.2 t).1
        (false || (followsScan g fi p.1 p.2 t).2.1))
      omega
    · have hcc : (followsScan g fi p.1 p.2 t).2.1 = false := by
        cases hx : (followsScan g fi p.1 p.2 t).2.1
        · rfl
        · exact absurd hx hc
      have h4 := followsScan_acc g fi p.1 p.2 t hcc
      have hinit : followsProd g fi (t, false) p = (t, false) := by
        unfold followsProd
        rw [h4, hcc]
        rfl
      rw [List.foldl_cons, hinit] at h ⊢
      exact ih t (fun p2 hp2 => hq p2 (List.mem_cons_of_mem _ hp2)) h

theorem followsAux_tle (g : YaccGrammar) (fi : YaccFirsts) :
    ∀ (fuel : Nat) (t : FollowTable), tleF t (followsAux g fi fuel t) := by
  intro fuel
  induction fuel with
  | zero => intro t; exact tleF_refl t
  | succ fuel ih =>
    intro t
    unfold followsAux
    by_cases hch : (followsPass g fi t).2 = true
    · rw [if_pos hch]
      exact tleF_trans (foldProds_tle g fi g.prods t false) (ih _)
    · rw [if_neg hch]
      exact tleF_refl t

theorem followsAux_fix (g : YaccGrammar) (fi : YaccFirsts)
    (hwfg : wfg g = true)
    (hfi : ∀ r, fi.firstsOf r ⊆ Finset.range g.tokensLen) :
    ∀ (fuel : Nat) (t : FollowTable), boundedF g t →
      t.length = g.rulesLen →
      g.rulesLen * g.tokensLen + 1 ≤ fuel + measF t →
      followsPass g fi (followsAux g fi fuel t) =
        (followsAux g fi fuel t, false) := by
  obtain ⟨hstart, heof, hprods⟩ := wfg_spec g hwfg
  intro fuel
  induction fuel with
  | zero =>
    intro t hb hlen hfuel
    have := measF_le_bound t g.tokensLen hb
    rw [hlen] at this
    omega
  | succ fuel ih =>
    intro t hb hlen hfuel
    unfold followsAux
    by_cases hch : (followsPass g fi t).2 = true
    · rw [if_pos hch]
      have htle := foldProds_tle g fi g.prods t false
      have hstrict : measF t < measF (followsPass g fi t).1 :=
        foldProds_strict g fi g.prods t
          (fun p hp q hq => by rw [hlen]; exact (hprods p hp).2.2 q hq) hch
      have hb2 : boundedF g (followsPass g fi t).1 :=
        foldProds_bounded g fi hfi g.prods t false hb
          (fun p hp => (hprods p hp).2.1)
      have hlen2 : (followsPass g fi t).1.length = g.rulesLen :=
        htle.1.trans hlen
      exact ih _ hb2 hlen2 (by omega)
    · rw [if_neg hch]
      have hch2 : (followsPass g fi t).2 = false := by
        cases hx : (followsPass g fi t).2
        · rfl
        · exact absurd hx hch
      obtain ⟨hacc, _⟩ := foldProds_acc g fi g.prods t false hch2
      have heta : followsPass g fi t =
          ((followsPass g fi t).1, (followsPass g fi t).2) := rfl
      have hacc2 : (followsPass g fi t).1 = t := hacc
      rw [heta, hacc2, hch2]

theorem followsInit_bounded (g : YaccGrammar) (heof : g.eofTokenIdx < g.tokensLen) :
    boundedF g (followsInit g) := by
  intro s hs
  unfold followsInit at hs
  rcases List.mem_or_eq_of_mem_set hs with hs2 | hs2
  · rw [List.eq_of_mem_replicate hs2]
    simp
  · rw [hs2]
    intro x hx
    rw [Finset.mem_singleton.1 hx]
    exact Finset.mem_range.2 heof

theorem followsInit_length (g : YaccGrammar) :
    (followsInit g).length = g.rulesLen := by
  unfold followsInit
  rw [List.length_set, List.length_replicate]

theorem followsNew_fix (g : YaccGrammar) (fi : YaccFirsts)
    (hwfg : wfg g = true)
    (hfi : ∀ r, fi.firstsOf r ⊆ Finset.range g.tokensLen) :
    followsPass g fi (YaccFollows.new g fi) = (YaccFollows.new g fi, false) := by
  obtain ⟨_, heof, _⟩ := wfg_spec g hwfg
  unfold YaccFollows.new
  exact followsAux_fix g fi hwfg hfi _ (followsInit g)
    (followsInit_bounded g heof) (followsInit_length g) (by omega)

theorem foldProds_fix_each (g : YaccGrammar) (fi : YaccFirsts) :
    ∀ (ps : List (Nat × List Symbol')) (R : FollowTable),
      List.foldl (followsProd g fi) (R, false) ps = (R, false) →
      ∀ p ∈ ps, (followsScan g fi p.1 p.2 R).1 = R ∧
        (followsScan g fi p.1 p.2 R).2.1 = false := by
  intro ps
  induction ps with
  | nil => intro R _ p hp; simp at hp
  | cons p ps ih =>
    intro R h
    rw [List.foldl_cons] at h
    have hinit : followsProd g fi (R, false) p =
        ((followsScan g fi p.1 p.2 R).1,
          false || (followsScan g fi p.1 p.2 R).2.1) := rfl
    rw [hinit] at h
    have h1 : (List.foldl (followsProd g fi)
        ((followsScan g fi p.1 p.2 R).1,
          false || (followsScan g fi p.1 p.2 R).2.1) ps).2 = false := by
      rw [h]
    obtain ⟨hacc, hflag⟩ := foldProds_acc g fi ps _ _ h1
    have hflag2 : (followsScan g fi p.1 p.2 R).2.1 = false := by
      simpa using hflag
    have hS : (followsScan g fi p.1 p.2 R).1 = R :=
      followsScan_acc g fi p.1 p.2 R hflag2
    have h2 : List.foldl (followsProd g fi) (R, false) ps = (R, false) := by
      rw [hS, hflag2] at h
      simpa using h
    intro p2 hp2
    rcases List.mem_cons.1 hp2 with hp3 | hp3
    · rw [hp3]
      exact ⟨hS, hflag2⟩
    · exact ih R h2 p2 hp3

theorem followsScan_fix_inclusions (g : YaccGrammar) (fi : YaccFirsts)
    (ridx : Nat) :
    ∀ (syms : List Symbol') (R : FollowTable),
      (followsScan g fi ridx syms R).2.1 = false →
      ∀ pre B suf, syms = pre ++ Symbol'.rule B :: suf →
        (∀ nt, suf.head? = some (.token nt) → nt ∈ getF R B) ∧
        (∀ nr, suf.head? = some (.rule nr) → fi.firstsOf nr ⊆ getF R B) ∧
        (allNullable fi suf = true →
          getF R ridx ∩ Finset.range g.tokensLen ⊆ getF R B) := by
  intro syms
  induction syms with
  | nil =>
    intro R _ pre B suf hdec
    exact absurd hdec (by simp)
  | cons s rest ih =>
    intro R hflag pre B suf hdec
    cases s with
    | token tk =>
      have hflag2 : (followsScan g fi ridx rest R).2.1 = false := hflag
      cases pre with
      | nil => simp at hdec
      | cons x pre2 =>
        have hdec2 : rest = pre2 ++ Symbol'.rule B :: suf := by
          have := List.tail_eq_of_cons_eq hdec
          exact this
        exact ih R hflag2 pre2 B suf hdec2
    | rule q =>
      have hflag1 : ((followsScan g fi ridx rest R).2.1 ||
          (ruleUpdate g fi ridx q rest.head?
            (followsScan g fi ridx rest R).1
            (followsScan g fi ridx rest R).2.2).2) = false := hflag
      have hflag2 : (followsScan g fi ridx rest R).2.1 = false ∧
          (ruleUpdate g fi ridx q rest.head?
            (followsScan g fi ridx rest R).1
            (followsScan g fi ridx rest R).2.2).2 = false := by
        simpa using hflag1
      have hrest : (followsScan g fi ridx rest R).1 = R :=
        followsScan_acc g fi ridx rest R hflag2.1
      have hru : (ruleUpdate g fi ridx q rest.head? R
          (followsScan g fi ridx rest R).2.2).2 = false := by
        have := hflag2.2
        rw [hrest] at this
        exact this
      obtain ⟨_, hruEps, hruTok, hruRule⟩ :=
        ruleUpdate_acc g fi ridx q rest.head? R
          (followsScan g fi ridx rest R).2.2 hru
      cases pre with
      | nil =>
        have hqB : q = B := by
          have := List.head_eq_of_cons_eq hdec
          injection this
        have hsuf : rest = suf := List.tail_eq_of_cons_eq hdec
        subst hqB
        subst hsuf
        refine ⟨hruTok, hruRule, ?_⟩
        intro hnull
        apply hruEps
        rw [followsScan_eps]
        exact hnull
      | cons x pre2 =>
        have hdec2 : rest = pre2 ++ Symbol'.rule B :: suf :=
          List.tail_eq_of_cons_eq hdec
        exact ih R hflag2.1 pre2 B suf hdec2

/-- C1 (amended): for the FOLLOW table computed by `YaccFollows::new`, EOF
is in the FOLLOW set of the start rule, and for every production
A → pre ++ B :: suf with B a rule: a token beginning `suf` is in follow(B);
the FIRST set of a rule beginning `suf` is contained in follow(B); and if
every symbol of `suf` is a nullable rule (in particular if `suf` is empty)
then follow(A) is contained in follow(B).  The stronger property claimed —
containment of the FIRST set of the whole suffix `suf`, and the
sentential-form characterization — does not hold of this computation (see
the counterexample). -/
theorem follows_inclusions (g : YaccGrammar) (fi : YaccFirsts)
    (hwfg : wfg g = true) (hwff : wfFirsts g fi = true) :
    g.eofTokenIdx ∈ getF (YaccFollows.new g fi) g.startRuleIdx ∧
    ∀ r body, (r, body) ∈ g.prods →
      ∀ pre B suf, body = pre ++ Symbol'.rule B :: suf →
        (∀ nt, suf.head? = some (.token nt) →
          nt ∈ getF (YaccFollows.new g fi) B) ∧
        (∀ nr, suf.head? = some (.rule nr) →
          fi.firstsOf nr ⊆ getF (YaccFollows.new g fi) B) ∧
        (allNullable fi suf = true →
          getF (YaccFollows.new g fi) r ∩ Finset.range g.tokensLen ⊆
            getF (YaccFollows.new g fi) B) := by
  have hfi := wfFirsts_spec g fi hwff
  have hfix := followsNew_fix g fi hwfg hfi
  obtain ⟨hstart, heof, _⟩ := wfg_spec g hwfg
  constructor
  · have htle := followsAux_tle g fi (g.rulesLen * g.tokensLen + 1)
      (followsInit g)
    have hin : g.eofTokenIdx ∈ getF (followsInit g) g.startRuleIdx := by
      unfold followsInit
      rw [getF_set_self _ _ _ (by rw [List.length_replicate]; exact hstart)]
      simp
    exact htle.2 g.startRuleIdx hin
  · intro r body hmem pre B suf hdec
    have hfold : List.foldl (followsProd g fi)
        (YaccFollows.new g fi, false) g.prods =
        (YaccFollows.new g fi, false) := hfix
    have heach := foldProds_fix_each g fi g.prods (YaccFollows.new g fi)
      hfold (r, body) hmem
    exact followsScan_fix_inclusions g fi r body (YaccFollows.new g fi)
      heach.2 pre B suf hdec

/-- Witness for the amended C1 at the grammar `gC`: in the production
S → Q W c (rules S = 0, Q = 1, W = 2, token c = 1), the token c directly
follows W, so c is in follow(W). -/
theorem follows_inclusions_witness :
    (wfg gC = true ∧ wfFirsts gC fiC = true) ∧
    1 ∈ getF (YaccFollows.new gC fiC) 2 :=
  ⟨⟨by decide, by decide⟩,
   ((follows_inclusions gC fiC (by decide) (by decide)).2 0
      [.rule 1, .rule 2, .token 1] (by decide)
      [.rule 1] 2 [.token 1] rfl).1 1 rfl⟩

/-- C1, refuted as stated: in the grammar `gC` with productions S → Q W c,
Q → q, W → ε (rules S = 0, Q = 1, W = 2; tokens q = 0, c = 1, EOF = 2), the
rule Q in the first production is followed by the suffix W c whose FIRST
set contains the token c, the sentential form Q c is derivable from the
start rule, and yet c is not in the computed follow(Q): the computation
only consults the immediately following symbol, so both the
first(β)-containment and the sentential-form characterization fail. -/
theorem follows_counterexample :
    (0, [Symbol'.rule 1, Symbol'.rule 2, Symbol'.token 1]) ∈ gC.prods ∧
    1 ∈ firstSeq fiC [Symbol'.rule 2, Symbol'.token 1] ∧
    1 ∉ getF (YaccFollows.new gC fiC) 1 ∧
    Derives gC [Symbol'.rule gC.startRuleIdx]
      [Symbol'.rule 1, Symbol'.token 1] := by
  refine ⟨by decide, by decide, by decide, ?_⟩
  have h1 : DerivStep gC [Symbol'.rule 0]
      [Symbol'.rule 1, Symbol'.rule 2, Symbol'.token 1] := by
    have := DerivStep.expand (g := gC) [] [] 0
      [Symbol'.rule 1, Symbol'.rule 2, Symbol'.token 1] (by decide)
    simpa using this
  have h2 : DerivStep gC [Symbol'.rule 1, Symbol'.rule 2, Symbol'.token 1]
      [Symbol'.rule 1, Symbol'.token 1] := by
    have := DerivStep.expand (g := gC) [Symbol'.rule 1] [Symbol'.token 1] 2
      [] (by decide)
    simpa using this
  exact Derives.tail _ _ _ (Derives.tail _ _ _ (Derives.refl _) h1) h2
